import Mathlib

/-!
Per-key rate limiters: sliding-window log and token bucket.

A shallow embedding of `SlidingWindowLogRateLimiter.cpp` and
`TokenBucketRateLimiter.cpp`.

Modelling conventions

* An instant of `std::chrono::steady_clock` is a rational number of
  milliseconds since the clock's epoch (`TimePoint`).  Every function that reads
  the clock in the source takes the value read as an explicit argument, one
  argument per call of `steady_clock::now()`.
* `std::chrono::milliseconds` is an integer count of milliseconds (`Int`). The
  comparison `now - front >= windowSize` is made by `<chrono>` in the tick of the
  clock, `int64_t` nanoseconds: the window is converted by `toNanos`
  (`count * 1000000`, wrap-around modulo `2^64`); differences of clock readings
  are taken exactly.
* `int` fields are `Int`; the one narrowing conversion of the source,
  `(int)timestamps.size()`, is `toInt` (wrap-around modulo `2^32`).
* `double` values are the rationals they denote, and every `double` operation
  of the source is the exact operation followed by the rounding `fl` (IEEE 754
  binary64, round to nearest, ties to even, subnormals included). Infinities and
  NaN are not modelled: `fl` has no largest value.
* `std::lock_guard` makes each critical section atomic: a function below is one
  critical section of the source, or the sequence of two of them, and threads
  are interleaved at this granularity (`Threads`).
-/

/-- An instant of the steady clock, in milliseconds. -/
abbrev TimePoint := ℚ

/-- The conversion `(int)n` of a `size_t` value `n`: reduction modulo `2^32` into
the range `[-2^31, 2^31)`. -/
def toInt (n : Nat) : Int := Int.bmod (n : Int) 4294967296

/-- The conversion of a count of milliseconds to the nanosecond tick of the steady
clock, as `<chrono>` does it for a comparison: `count * 1000000` in `int64_t`,
reduced modulo `2^64` into `[-2^63, 2^63)`. -/
def toNanos (millis : Int) : Int := Int.bmod (millis * 1000000) 18446744073709551616

/-- The counts of milliseconds whose nanosecond count fits `int64_t`, so that
`toNanos` does not wrap. -/
def FitsNanos (millis : Int) : Prop := -9223372036854 ≤ millis ∧ millis ≤ 9223372036854

instance (millis : Int) : Decidable (FitsNanos millis) := by
  unfold FitsNanos
  infer_instance

/-- Values of the C++ type `int`. -/
def IsInt (z : Int) : Prop := -2147483648 ≤ z ∧ z < 2147483648

instance (z : Int) : Decidable (IsInt z) := by
  unfold IsInt
  infer_instance

/-- The clock readings are non-decreasing in the order they are taken. -/
def NonDecreasing (rs : List TimePoint) : Prop := rs.Pairwise (fun a b => a ≤ b)

instance (rs : List TimePoint) : Decidable (NonDecreasing rs) := by
  unfold NonDecreasing
  infer_instance

/-! ## SlidingLog -/

/-- The class `SlidingLog`: the deque of admission instants (front first), the
ceiling and the window length. -/
structure SlidingLog where
  timestamps : List TimePoint
  limit : Int
  windowSize : Int
  deriving DecidableEq

namespace SlidingLog

/-- The constructor `SlidingLog(limit, windowSize)`: an empty deque. -/
def new (limit : Int) (windowSize : Int) : SlidingLog :=
  { timestamps := [], limit := limit, windowSize := windowSize }

/-- The loop of `cleanup`:
`while (!timestamps.empty() && now - timestamps.front() >= windowSize) pop_front()`.
Both sides of the comparison are counts of nanoseconds: the difference of the two
readings (`(now - t) * 1000000`, readings being in milliseconds) and the window
converted by `toNanos`. -/
def popExpired (now : TimePoint) (windowSize : Int) : List TimePoint → List TimePoint
  | [] => []
  | t :: rest =>
    if (now - t) * 1000000 ≥ ((toNanos windowSize : Int) : ℚ) then
      popExpired now windowSize rest
    else t :: rest

/-- The method `cleanup`, with `now` the clock value it reads. -/
def cleanup (s : SlidingLog) (now : TimePoint) : SlidingLog :=
  { s with timestamps := popExpired now s.windowSize s.timestamps }

/-- The method `allowRequest`. It reads the clock twice: `now₁` inside `cleanup`
and `now₂` for the instant pushed at the back on admission. -/
def allowRequest (s : SlidingLog) (now₁ now₂ : TimePoint) : Bool × SlidingLog :=
  let s₁ := s.cleanup now₁
  if toInt s₁.timestamps.length < s₁.limit then
    (true, { s₁ with timestamps := s₁.timestamps ++ [now₂] })
  else
    (false, s₁)

/-- A run of `allowRequest` calls, one per pair of clock readings: the decisions
in call order and the final state. -/
def run (s : SlidingLog) : List (TimePoint × TimePoint) → List Bool × SlidingLog
  | [] => ([], s)
  | c :: cs =>
    let r := s.allowRequest c.1 c.2
    let rs := run r.2 cs
    (r.1 :: rs.1, rs.2)

/-- The admission history of a run: the instants recorded by the admitted calls,
in call order. -/
def admitted (s : SlidingLog) (calls : List (TimePoint × TimePoint)) : List TimePoint :=
  ((calls.zip (s.run calls).1).filter (fun p => p.2)).map (fun p => p.1.2)

/-- All clock readings of a run, in the order they are taken. -/
def readings : List (TimePoint × TimePoint) → List TimePoint
  | [] => []
  | c :: cs => c.1 :: c.2 :: readings cs

/-- The pruning as the specification words it: remove every entry `t` with
`now - t ≥ windowSize`, wherever it stands in the sequence, keeping the order of
the others. -/
def pruneAll (now : TimePoint) (windowSize : Int) (l : List TimePoint) : List TimePoint :=
  l.filter (fun t => !decide (now - t ≥ (windowSize : ℚ)))

/-- The number of instants of `history` in the half-open interval
`(T - windowSize, T]`. -/
def countInWindow (windowSize : Int) (T : TimePoint) (history : List TimePoint) : Nat :=
  history.countP (fun t => decide (T - (windowSize : ℚ) < t) && decide (t ≤ T))

end SlidingLog

/-! ## Double arithmetic -/

/-- The power `2 ^ e` for an integer exponent. -/
def pow2 (e : Int) : ℚ :=
  match e with
  | Int.ofNat n => ((2 ^ n : Nat) : ℚ)
  | Int.negSucc n => 1 / ((2 ^ (n + 1) : Nat) : ℚ)

/-- The binary logarithm of a natural number, rounded down, by halving at most
`fuel` times. -/
def log2Fuel : Nat → Nat → Nat
  | 0, _ => 0
  | fuel + 1, n => if n < 2 then 0 else log2Fuel fuel (n / 2) + 1

/-- The binary logarithm of a natural number, rounded down (0 at 0). -/
def natLog2 (n : Nat) : Nat := log2Fuel n n

/-- The binary exponent of a non-zero rational `q`: the integer `e` with
`2 ^ e ≤ |q| < 2 ^ (e + 1)`. -/
def ilog2 (q : ℚ) : Int :=
  let e : Int := (natLog2 q.num.natAbs : Int) - (natLog2 q.den : Int)
  if pow2 e ≤ |q| then e else e - 1

/-- Rounding to the nearest integer, ties to the even one. -/
def roundHalfEven (q : ℚ) : Int :=
  let f : Int := ⌊q⌋
  if q - (f : ℚ) < 1 / 2 then f
  else if 1 / 2 < q - (f : ℚ) then f + 1
  else if f % 2 = 0 then f else f + 1

/-- Rounding of a real number to `double`: the nearest multiple of the unit in
the last place `2 ^ (e - 52)`, where `e` is the binary exponent of `x` and at
least `-1022` (subnormal range), ties to the even multiple. -/
def fl (x : ℚ) : ℚ :=
  if x = 0 then 0
  else
    let ulp := pow2 (max (ilog2 x) (-1022) - 52)
    (roundHalfEven (x / ulp) : ℚ) * ulp

/-! ## TokenBucket -/

/-- The class `TokenBucket`. -/
structure TokenBucket where
  capacity : Int
  tokens : ℚ
  refillRatePerMs : ℚ
  lastRefillTime : TimePoint
  deriving DecidableEq

namespace TokenBucket

/-- The constructor `TokenBucket(capacity, refillRatePerSecond)`, with `now` the
clock value it reads: the bucket starts full. The conversion of the `int`
capacity to `double` is exact; the rate argument is the `double` nearest to the
number given, and the division by `1000.0` rounds. -/
def new (capacity : Int) (refillRatePerSecond : ℚ) (now : TimePoint) : TokenBucket :=
  { capacity := capacity
    tokens := (capacity : ℚ)
    refillRatePerMs := fl (fl refillRatePerSecond / 1000)
    lastRefillTime := now }

/-- The function `std::min(a, b)`: `b` when `b < a`, else `a`. -/
def stdMin (a b : ℚ) : ℚ := if b < a then b else a

/-- The conversion `std::chrono::duration<double, std::milli>(now - last)`: the
difference is an exact `int64_t` count of nanoseconds, converted to `double` and
divided by `1000000.0`. -/
def elapsedMs (last now : TimePoint) : ℚ :=
  fl (fl ((now - last) * 1000000) / 1000000)

/-- The method `refillTokens`, with `now` the clock value it reads. -/
def refillTokens (b : TokenBucket) (now : TimePoint) : TokenBucket :=
  let elapsed := elapsedMs b.lastRefillTime now
  let tokensToAdd := fl (elapsed * b.refillRatePerMs)
  { b with
    tokens := stdMin (b.capacity : ℚ) (fl (b.tokens + tokensToAdd))
    lastRefillTime := now }

/-- The method `allowRequest`, with `now` the clock value read by `refillTokens`. -/
def allowRequest (b : TokenBucket) (now : TimePoint) : Bool × TokenBucket :=
  let b₁ := b.refillTokens now
  if b₁.tokens ≥ 1 then
    (true, { b₁ with tokens := fl (b₁.tokens - 1) })
  else
    (false, b₁)

/-- A run of `allowRequest` calls, one per clock reading: the decisions in call
order and the final state. -/
def run (b : TokenBucket) : List TimePoint → List Bool × TokenBucket
  | [] => ([], b)
  | t :: ts =>
    let r := b.allowRequest t
    let rs := run r.2 ts
    (r.1 :: rs.1, rs.2)

/-- The number of admitted calls among the decisions of a run. -/
def admissions (decisions : List Bool) : Nat := decisions.count true

/-- No `double` operation of the refill of a call at `now` rounds: the elapsed
time in milliseconds, the tokens to add and their sum with the stored tokens are
computed exactly. -/
def ExactRefill (b : TokenBucket) (now : TimePoint) : Prop :=
  elapsedMs b.lastRefillTime now = now - b.lastRefillTime ∧
  fl ((now - b.lastRefillTime) * b.refillRatePerMs) =
    (now - b.lastRefillTime) * b.refillRatePerMs ∧
  fl (b.tokens + (now - b.lastRefillTime) * b.refillRatePerMs) =
    b.tokens + (now - b.lastRefillTime) * b.refillRatePerMs

instance (b : TokenBucket) (now : TimePoint) : Decidable (ExactRefill b now) := by
  unfold ExactRefill
  infer_instance

/-- No refill of the run rounds. -/
def ExactRun (b : TokenBucket) : List TimePoint → Prop
  | [] => True
  | t :: ts => ExactRefill b t ∧ ExactRun (b.allowRequest t).2 ts

/-- Whether a run is free of rounding can be computed. -/
def decidableExactRun (b : TokenBucket) :
    (calls : List TimePoint) → Decidable (ExactRun b calls)
  | [] => isTrue trivial
  | t :: ts =>
    match (inferInstance : Decidable (ExactRefill b t)),
      decidableExactRun (b.allowRequest t).2 ts with
    | isTrue h₁, isTrue h₂ => isTrue ⟨h₁, h₂⟩
    | isFalse h₁, _ => isFalse (fun h => h₁ h.1)
    | _, isFalse h₂ => isFalse (fun h => h₂ h.2)

instance (b : TokenBucket) (calls : List TimePoint) : Decidable (ExactRun b calls) :=
  decidableExactRun b calls

end TokenBucket

/-! ## The keyed limiters -/

/-- The map `std::unordered_map<std::string, std::shared_ptr<V>>`: every key owns
its own instance, so the map is a finite partial function from keys to states. -/
abbrev Registry (V : Type) := String → Option V

/-- The assignment `map[key] = v`. -/
def Registry.insert {V : Type} (m : Registry V) (key : String) (v : V) : Registry V :=
  fun k => if k = key then some v else m k

/-- The class `SlidingWindowLogRateLimiter`. -/
structure SlidingWindowLogRateLimiter where
  userLogs : Registry SlidingLog
  limit : Int
  windowSize : Int

namespace SlidingWindowLogRateLimiter

/-- The constructor `SlidingWindowLogRateLimiter(limit, windowSize)`: an empty map. -/
def new (limit : Int) (windowSize : Int) : SlidingWindowLogRateLimiter :=
  { userLogs := fun _ => none, limit := limit, windowSize := windowSize }

/-- The method `allowRequest(userId)`: find or create the log of `userId`, then
call its `allowRequest`; the call mutates the instance the map points to. -/
def allowRequest (l : SlidingWindowLogRateLimiter) (userId : String)
    (now₁ now₂ : TimePoint) : Bool × SlidingWindowLogRateLimiter :=
  let found : SlidingLog × Registry SlidingLog :=
    match l.userLogs userId with
    | none =>
      let log := SlidingLog.new l.limit l.windowSize
      (log, l.userLogs.insert userId log)
    | some log => (log, l.userLogs)
  let r := found.1.allowRequest now₁ now₂
  (r.1, { l with userLogs := found.2.insert userId r.2 })

/-- A run of keyed requests `(userId, now₁, now₂)`: the decisions in call order
and the final limiter. -/
def run (l : SlidingWindowLogRateLimiter) :
    List (String × TimePoint × TimePoint) → List Bool × SlidingWindowLogRateLimiter
  | [] => ([], l)
  | q :: qs =>
    let r := l.allowRequest q.1 q.2.1 q.2.2
    let rs := run r.2 qs
    (r.1 :: rs.1, rs.2)

end SlidingWindowLogRateLimiter

/-- The class `TokenBucketRateLimiter`. -/
structure TokenBucketRateLimiter where
  userBuckets : Registry TokenBucket
  capacity : Int
  refillRatePerSecond : ℚ

namespace TokenBucketRateLimiter

/-- The constructor `TokenBucketRateLimiter(capacity, refillRatePerSecond)`. -/
def new (capacity : Int) (refillRatePerSecond : ℚ) : TokenBucketRateLimiter :=
  { userBuckets := fun _ => none
    capacity := capacity
    refillRatePerSecond := refillRatePerSecond }

/-- The method `allowRequest(userId)`. `nowNew` is the clock value read by the
`TokenBucket` constructor (used only when the bucket is created) and `now` the
one read by the bucket's `allowRequest`. -/
def allowRequest (l : TokenBucketRateLimiter) (userId : String)
    (nowNew now : TimePoint) : Bool × TokenBucketRateLimiter :=
  let found : TokenBucket × Registry TokenBucket :=
    match l.userBuckets userId with
    | none =>
      let bucket := TokenBucket.new l.capacity l.refillRatePerSecond nowNew
      (bucket, l.userBuckets.insert userId bucket)
    | some bucket => (bucket, l.userBuckets)
  let r := found.1.allowRequest now
  (r.1, { l with userBuckets := found.2.insert userId r.2 })

/-- A run of keyed requests `(userId, nowNew, now)`: the decisions in call order
and the final limiter. -/
def run (l : TokenBucketRateLimiter) :
    List (String × TimePoint × TimePoint) → List Bool × TokenBucketRateLimiter
  | [] => ([], l)
  | q :: qs =>
    let r := l.allowRequest q.1 q.2.1 q.2.2
    let rs := run r.2 qs
    (r.1 :: rs.1, rs.2)

/-- The first critical section of `allowRequest(userId)`, under `mapMutex`: find
the bucket of `userId`, or create and store it (`nowNew` is then the clock value
read by the constructor). The thread leaves the section holding a `shared_ptr` to
the bucket stored for `userId`. -/
def findOrCreate (l : TokenBucketRateLimiter) (userId : String) (nowNew : TimePoint) :
    TokenBucketRateLimiter :=
  match l.userBuckets userId with
  | none =>
    { l with userBuckets :=
        l.userBuckets.insert userId (TokenBucket.new l.capacity l.refillRatePerSecond nowNew) }
  | some _ => l

/-- The second critical section of `allowRequest(userId)`: `bucket->allowRequest()`
under the bucket's own `mtx`, on the bucket the thread's pointer designates. No
entry of the map is ever replaced or removed, so this is the bucket stored for
`userId`; the branch `none` is not reached by a thread that has been through
`findOrCreate`. -/
def callBucket (l : TokenBucketRateLimiter) (userId : String) (now : TimePoint) :
    Bool × TokenBucketRateLimiter :=
  match l.userBuckets userId with
  | none => (false, l)
  | some bucket =>
    let r := bucket.allowRequest now
    (r.1, { l with userBuckets := l.userBuckets.insert userId r.2 })

end TokenBucketRateLimiter

/-! ## Threads -/

/-- Threads that each call `limiter.allowRequest(userId)` once on a shared
`TokenBucketRateLimiter`: the limiter and, for every thread, the number of
critical sections it has completed (0: not started, 1: it holds its bucket
pointer, 2: it has returned). -/
structure Threads where
  limiter : TokenBucketRateLimiter
  pc : Nat → Nat

namespace Threads

/-- The threads before any of them has started. -/
def start (l : TokenBucketRateLimiter) : Threads :=
  { limiter := l, pc := fun _ => 0 }

/-- The scheduler lets `thread` run its next critical section, which reads the
clock value `now`: the lookup, then the call of the bucket, which returns the
decision of the thread; a thread that has returned does nothing. -/
def step (userId : String) (s : Threads) (thread : Nat) (now : TimePoint) :
    Option Bool × Threads :=
  if s.pc thread = 0 then
    (none, { limiter := s.limiter.findOrCreate userId now
             pc := fun i => if i = thread then 1 else s.pc i })
  else if s.pc thread = 1 then
    let r := s.limiter.callBucket userId now
    (some r.1, { limiter := r.2
                 pc := fun i => if i = thread then 2 else s.pc i })
  else
    (none, s)

/-- The execution of a schedule, a list of (thread, clock value) in the order the
critical sections run: the decisions in the order they are returned, and the
final state. -/
def run (userId : String) (s : Threads) : List (Nat × TimePoint) → List Bool × Threads
  | [] => ([], s)
  | p :: rest =>
    let r := s.step userId p.1 p.2
    let rs := run userId r.2 rest
    (match r.1 with
      | some d => d :: rs.1
      | none => rs.1,
     rs.2)

/-- The number of bucket calls a schedule runs, from the given progress of the
threads. -/
def pendingCalls (pc : Nat → Nat) : List (Nat × TimePoint) → Nat
  | [] => 0
  | p :: rest =>
    if pc p.1 = 0 then pendingCalls (fun i => if i = p.1 then 1 else pc i) rest
    else if pc p.1 = 1 then pendingCalls (fun i => if i = p.1 then 2 else pc i) rest + 1
    else pendingCalls pc rest

/-- The schedules of `n` threads that run every thread to completion: only the
threads `0 .. n-1` are scheduled, each exactly twice (its two critical sections,
in program order). Every interleaving of the `n` calls is such a schedule. -/
def Complete (n : Nat) (schedule : List (Nat × TimePoint)) : Prop :=
  (∀ p ∈ schedule, p.1 < n) ∧ ∀ i, i < n → (schedule.map Prod.fst).count i = 2

instance (n : Nat) (schedule : List (Nat × TimePoint)) : Decidable (Complete n schedule) := by
  unfold Complete
  infer_instance

end Threads

/-- The decisions a run returned to the requests of `key`, in call order. -/
def decisionsFor (key : String) (requests : List (String × TimePoint × TimePoint))
    (decisions : List Bool) : List Bool :=
  ((requests.zip decisions).filter (fun p => decide (p.1.1 = key))).map (fun p => p.2)

/-- The requests of `key` within an interleaved run, in call order. -/
def requestsOf (key : String) (requests : List (String × TimePoint × TimePoint)) :
    List (String × TimePoint × TimePoint) :=
  requests.filter (fun q => decide (q.1 = key))

/-! ## Lemmas on SlidingLog -/

theorem toInt_of_lt {n : Nat} (h : n < 2147483648) : toInt n = (n : Int) := by
  unfold toInt Int.bmod
  simp only []
  omega

theorem toNanos_of_fits {w : Int} (h : FitsNanos w) : toNanos w = w * 1000000 := by
  unfold FitsNanos at h
  unfold toNanos Int.bmod
  simp only []
  omega

theorem toNanos_le_of_nonneg {w : Int} (h : 0 ≤ w) : toNanos w ≤ w * 1000000 := by
  unfold toNanos Int.bmod
  simp only []
  omega

/-- When the window does not wrap, the loop condition is `now - t ≥ windowSize`. -/
theorem expired_iff_of_fits (now t : TimePoint) {w : Int} (h : FitsNanos w) :
    (now - t) * 1000000 ≥ ((toNanos w : Int) : ℚ) ↔ now - t ≥ (w : ℚ) := by
  rw [toNanos_of_fits h]
  push_cast
  constructor <;> intro h1 <;> linarith

theorem popExpired_split (now : TimePoint) (w : Int) (l : List TimePoint) :
    ∃ dropped, l = dropped ++ SlidingLog.popExpired now w l ∧
      ∀ d ∈ dropped, (now - d) * 1000000 ≥ ((toNanos w : Int) : ℚ) := by
  induction l with
  | nil => exact ⟨[], by simp [SlidingLog.popExpired]⟩
  | cons t rest ih =>
    by_cases h : (now - t) * 1000000 ≥ ((toNanos w : Int) : ℚ)
    · obtain ⟨dr, hdr, hall⟩ := ih
      refine ⟨t :: dr, ?_, ?_⟩
      · simp only [SlidingLog.popExpired, if_pos h, List.cons_append]
        rw [← hdr]
      · intro d hd
        rcases List.mem_cons.mp hd with rfl | hd
        · exact h
        · exact hall d hd
    · exact ⟨[], by simp [SlidingLog.popExpired, if_neg h]⟩

theorem popExpired_length_le (now : TimePoint) (w : Int) (l : List TimePoint) :
    (SlidingLog.popExpired now w l).length ≤ l.length := by
  obtain ⟨dr, hdr, _⟩ := popExpired_split now w l
  have := congrArg List.length hdr
  simp only [List.length_append] at this
  omega

theorem allowRequest_limit (s : SlidingLog) (n₁ n₂ : TimePoint) :
    (s.allowRequest n₁ n₂).2.limit = s.limit := by
  unfold SlidingLog.allowRequest SlidingLog.cleanup
  simp only []
  split <;> rfl

theorem allowRequest_windowSize (s : SlidingLog) (n₁ n₂ : TimePoint) :
    (s.allowRequest n₁ n₂).2.windowSize = s.windowSize := by
  unfold SlidingLog.allowRequest SlidingLog.cleanup
  simp only []
  split <;> rfl

theorem allowRequest_true (s : SlidingLog) (n₁ n₂ : TimePoint)
    (h : toInt (SlidingLog.popExpired n₁ s.windowSize s.timestamps).length < s.limit) :
    s.allowRequest n₁ n₂ =
      (true, { s with timestamps := SlidingLog.popExpired n₁ s.windowSize s.timestamps ++ [n₂] }) := by
  unfold SlidingLog.allowRequest SlidingLog.cleanup
  simp only []
  rw [if_pos h]

theorem allowRequest_false (s : SlidingLog) (n₁ n₂ : TimePoint)
    (h : ¬ toInt (SlidingLog.popExpired n₁ s.windowSize s.timestamps).length < s.limit) :
    s.allowRequest n₁ n₂ =
      (false, { s with timestamps := SlidingLog.popExpired n₁ s.windowSize s.timestamps }) := by
  unfold SlidingLog.allowRequest SlidingLog.cleanup
  simp only []
  rw [if_neg h]

theorem allowRequest_length_le (s : SlidingLog) (n₁ n₂ : TimePoint)
    (hi : s.limit < 2147483648) (hlen : (s.timestamps.length : Int) ≤ s.limit) :
    ((s.allowRequest n₁ n₂).2.timestamps.length : Int) ≤ s.limit := by
  have hp := popExpired_length_le n₁ s.windowSize s.timestamps
  have hlt : (SlidingLog.popExpired n₁ s.windowSize s.timestamps).length < 2147483648 := by
    omega
  by_cases h : toInt (SlidingLog.popExpired n₁ s.windowSize s.timestamps).length < s.limit
  · rw [allowRequest_true s n₁ n₂ h]
    rw [toInt_of_lt hlt] at h
    simp only [List.length_append, List.length_singleton]
    omega
  · rw [allowRequest_false s n₁ n₂ h]
    simp only []
    omega

theorem run_length_le (s : SlidingLog) (calls : List (TimePoint × TimePoint))
    (hi : s.limit < 2147483648) (hlen : (s.timestamps.length : Int) ≤ s.limit) :
    (((s.run calls).2.timestamps.length : Int) ≤ s.limit) := by
  induction calls generalizing s with
  | nil => simpa [SlidingLog.run] using hlen
  | cons c cs ih =>
    simp only [SlidingLog.run]
    have h1 := allowRequest_length_le s c.1 c.2 hi hlen
    have h2 := ih (s.allowRequest c.1 c.2).2
      (by rw [allowRequest_limit]; exact hi) (by rw [allowRequest_limit]; exact h1)
    rw [allowRequest_limit] at h2
    exact h2

theorem admitted_cons (s : SlidingLog) (c : TimePoint × TimePoint)
    (cs : List (TimePoint × TimePoint)) :
    s.admitted (c :: cs) =
      if (s.allowRequest c.1 c.2).1 = true then
        c.2 :: (s.allowRequest c.1 c.2).2.admitted cs
      else (s.allowRequest c.1 c.2).2.admitted cs := by
  unfold SlidingLog.admitted
  simp only [SlidingLog.run, List.zip_cons_cons, List.filter_cons]
  split <;> simp_all

theorem countInWindow_append (w : Int) (T : TimePoint) (l₁ l₂ : List TimePoint) :
    SlidingLog.countInWindow w T (l₁ ++ l₂) =
      SlidingLog.countInWindow w T l₁ + SlidingLog.countInWindow w T l₂ := by
  unfold SlidingLog.countInWindow
  exact List.countP_append _ l₁ l₂

theorem countInWindow_le_length (w : Int) (T : TimePoint) (l : List TimePoint) :
    SlidingLog.countInWindow w T l ≤ l.length := by
  unfold SlidingLog.countInWindow
  exact List.countP_le_length _

theorem countInWindow_expired (w : Int) (T c : TimePoint) (l : List TimePoint)
    (hl : ∀ d ∈ l, d + (w : ℚ) ≤ c) (hc : c ≤ T) :
    SlidingLog.countInWindow w T l = 0 := by
  unfold SlidingLog.countInWindow
  rw [List.countP_eq_zero]
  intro d hd
  have := hl d hd
  simp only [Bool.and_eq_true, decide_eq_true_eq, not_and, not_le]
  intro h
  linarith

theorem countInWindow_later (w : Int) (T n : TimePoint) (h : T < n) :
    SlidingLog.countInWindow w T [n] = 0 := by
  unfold SlidingLog.countInWindow
  rw [List.countP_eq_zero]
  intro d hd
  rw [List.mem_singleton] at hd
  subst hd
  simp only [Bool.and_eq_true, decide_eq_true_eq, not_and, not_le]
  intro _
  exact h

theorem window_count_run (s : SlidingLog) (calls : List (TimePoint × TimePoint))
    (dropped : List TimePoint) (c : TimePoint)
    (hi : s.limit < 2147483648) (hw : FitsNanos s.windowSize)
    (hlen : (s.timestamps.length : Int) ≤ s.limit)
    (hdrop : ∀ d ∈ dropped, d + (s.windowSize : ℚ) ≤ c)
    (hcount : ∀ T, (SlidingLog.countInWindow s.windowSize T (dropped ++ s.timestamps) : Int)
      ≤ s.limit)
    (hmono : NonDecreasing (c :: SlidingLog.readings calls)) :
    ∀ T, (SlidingLog.countInWindow s.windowSize T
      (dropped ++ s.timestamps ++ s.admitted calls) : Int) ≤ s.limit := by
  induction calls generalizing s dropped c with
  | nil =>
    intro T
    simpa [SlidingLog.admitted, SlidingLog.run] using hcount T
  | cons q qs ih =>
    obtain ⟨n₁, n₂⟩ := q
    unfold NonDecreasing at hmono
    simp only [SlidingLog.readings, List.pairwise_cons, List.mem_cons, forall_eq_or_imp] at hmono
    obtain ⟨⟨hc1, hc2, -⟩, ⟨h12, -⟩, hn2, hrest⟩ := hmono
    have htail : NonDecreasing (n₂ :: SlidingLog.readings qs) := by
      unfold NonDecreasing
      exact List.pairwise_cons.mpr ⟨hn2, hrest⟩
    obtain ⟨dr, hdr, hdrall⟩ := popExpired_split n₁ s.windowSize s.timestamps
    have hp := popExpired_length_le n₁ s.windowSize s.timestamps
    have hlt : (SlidingLog.popExpired n₁ s.windowSize s.timestamps).length < 2147483648 := by
      omega
    have hdrop2 : ∀ d ∈ dropped ++ dr, d + (s.windowSize : ℚ) ≤ n₂ := by
      intro d hd
      rcases List.mem_append.mp hd with hd | hd
      · have := hdrop d hd
        linarith
      · have := (expired_iff_of_fits n₁ d hw).mp (hdrall d hd)
        linarith
    have hsplit : dropped ++ s.timestamps =
        (dropped ++ dr) ++ SlidingLog.popExpired n₁ s.windowSize s.timestamps := by
      rw [List.append_assoc, ← hdr]
    intro T
    rw [admitted_cons]
    by_cases h : toInt (SlidingLog.popExpired n₁ s.windowSize s.timestamps).length < s.limit
    · rw [allowRequest_true s n₁ n₂ h]
      rw [toInt_of_lt hlt] at h
      simp only [if_true]
      have key := ih
        { s with timestamps := SlidingLog.popExpired n₁ s.windowSize s.timestamps ++ [n₂] }
        (dropped ++ dr) n₂ hi hw
        (by simp only [List.length_append, List.length_singleton]; omega)
        hdrop2
        (by
          intro T0
          simp only []
          rcases le_or_lt n₂ T0 with hT | hT
          · rw [countInWindow_append, countInWindow_expired _ T0 n₂ _ hdrop2 hT]
            have := countInWindow_le_length s.windowSize T0
              (SlidingLog.popExpired n₁ s.windowSize s.timestamps ++ [n₂])
            simp only [List.length_append, List.length_singleton] at this
            omega
          · rw [← List.append_assoc, ← hsplit, countInWindow_append,
              countInWindow_later _ T0 n₂ hT]
            simpa using hcount T0)
        htail T
      simp only [] at key
      rw [hsplit]
      simpa [List.append_assoc] using key
    · rw [allowRequest_false s n₁ n₂ h]
      simp only [Bool.false_eq_true, if_false]
      have key := ih
        { s with timestamps := SlidingLog.popExpired n₁ s.windowSize s.timestamps }
        (dropped ++ dr) n₂ hi hw
        (by simp only []; omega)
        hdrop2
        (by
          intro T0
          simp only []
          rw [← hsplit]
          exact hcount T0)
        htail T
      simp only [] at key
      rw [hsplit]
      exact key

/-! ## Claims on SlidingLog -/

/-- C1, as stated, fails for a window whose nanosecond count does not fit
`int64_t`: with limit 1 and a window of 9223372036855 ms the converted window is
negative, every call prunes the whole log, and the calls at 0, 1 and 5 ms are all
admitted, three admissions in the window ending at 5 ms. -/
theorem sliding_window_rate_guarantee_counterexample :
    (0 : Int) ≤ 1 ∧ IsInt 1 ∧
    NonDecreasing (SlidingLog.readings [(0, 0), (1, 1), (5, 5)]) ∧
    (SlidingLog.new 1 9223372036855).admitted [(0, 0), (1, 1), (5, 5)] = [0, 1, 5] ∧
    ¬ (SlidingLog.countInWindow 9223372036855 5
      ((SlidingLog.new 1 9223372036855).admitted [(0, 0), (1, 1), (5, 5)]) : Int) ≤ 1 := by
  decide!

/-- C1, amended. Sliding-window rate guarantee: for every limit `0 ≤ limit` (an
`int`), every window size of at most 9223372036854 ms (the largest whose
nanosecond count fits `int64_t`) and every run of `allowRequest` calls on a
freshly constructed log under non-decreasing clock readings, for every instant
`T` at most `limit` admitted requests have their recorded timestamp in
`(T - windowSize, T]`. -/
theorem sliding_window_rate_guarantee (limit windowSize : Int)
    (calls : List (TimePoint × TimePoint)) (T : TimePoint)
    (h0 : 0 ≤ limit) (hint : IsInt limit) (hwin : windowSize ≤ 9223372036854)
    (hmono : NonDecreasing (SlidingLog.readings calls)) :
    (SlidingLog.countInWindow windowSize T
      ((SlidingLog.new limit windowSize).admitted calls) : Int) ≤ limit := by
  by_cases hneg : windowSize ≤ 0
  · have hq : (windowSize : ℚ) ≤ 0 := by exact_mod_cast hneg
    have hzero : SlidingLog.countInWindow windowSize T
        ((SlidingLog.new limit windowSize).admitted calls) = 0 := by
      unfold SlidingLog.countInWindow
      rw [List.countP_eq_zero]
      intro t _
      simp only [Bool.and_eq_true, decide_eq_true_eq, not_and, not_le]
      intro h
      linarith
    rw [hzero]
    simpa using h0
  · have hfit : FitsNanos windowSize := ⟨by omega, hwin⟩
    have hmono2 : ∃ c, NonDecreasing (c :: SlidingLog.readings calls) := by
      cases hr : SlidingLog.readings calls with
      | nil => exact ⟨0, by simp [NonDecreasing]⟩
      | cons r rs =>
        rw [hr] at hmono
        unfold NonDecreasing at hmono ⊢
        refine ⟨r, List.pairwise_cons.mpr ⟨?_, hmono⟩⟩
        intro a ha
        rcases List.mem_cons.mp ha with rfl | ha
        · exact le_refl _
        · exact (List.pairwise_cons.mp hmono).1 a ha
    obtain ⟨c, hc⟩ := hmono2
    have := window_count_run (SlidingLog.new limit windowSize) calls [] c hint.2 hfit
      (by simpa [SlidingLog.new] using h0)
      (by simp)
      (by intro T0; simpa [SlidingLog.new, SlidingLog.countInWindow] using h0)
      hc T
    simpa [SlidingLog.new] using this

/-- Witness for C1, amended: limit 2, window 1000 ms, five calls of which the
third is rejected; the window ending at `T = 1001` holds two admitted
timestamps. -/
theorem sliding_window_rate_guarantee_witness :
    (0 : Int) ≤ 2 ∧ IsInt 2 ∧
    NonDecreasing (SlidingLog.readings [(0, 0), (1, 1), (2, 2), (1000, 1001), (1001, 1001)]) ∧
    (SlidingLog.countInWindow 1000 1001
      ((SlidingLog.new 2 1000).admitted
        [(0, 0), (1, 1), (2, 2), (1000, 1001), (1001, 1001)]) : Int) ≤ 2 :=
  ⟨by decide, by decide, by decide!,
    sliding_window_rate_guarantee 2 1000 [(0, 0), (1, 1), (2, 2), (1000, 1001), (1001, 1001)]
      1001 (by decide) (by decide) (by decide) (by decide!)⟩

/-- C4. Retained-log length bound: for every limit `0 ≤ limit` (an `int`) and
every window size, in every state reached from a freshly constructed log by
`allowRequest` calls, whatever the clock readings, the number of retained
timestamps is at most `limit`. -/
theorem retained_length_le_limit (limit windowSize : Int)
    (calls : List (TimePoint × TimePoint)) (h0 : 0 ≤ limit) (hint : IsInt limit) :
    (((SlidingLog.new limit windowSize).run calls).2.timestamps.length : Int) ≤ limit := by
  have := run_length_le (SlidingLog.new limit windowSize) calls hint.2
    (by simpa [SlidingLog.new] using h0)
  simpa [SlidingLog.new] using this

/-- Witness for C4: limit 2, window 1000 ms, clock readings that go backwards. -/
theorem retained_length_le_limit_witness :
    (0 : Int) ≤ 2 ∧ IsInt 2 ∧
    (((SlidingLog.new 2 1000).run [(5, 5), (3, 4), (0, 0), (2000, 1)]).2.timestamps.length
      : Int) ≤ 2 :=
  ⟨by decide, by decide,
    retained_length_le_limit 2 1000 [(5, 5), (3, 4), (0, 0), (2000, 1)] (by decide) (by decide)⟩

/-- C5. Sliding-window decision rule: for every log holding fewer than `2^31`
timestamps (as every reachable log does) and all clock readings, `allowRequest`
returns true if and only if the number of timestamps left by the pruning is
strictly less than `limit`; on true the new log is the pruned log with the clock
reading `now₂` appended at the back, on false it is exactly the pruned log; the
configuration is unchanged. -/
theorem allowRequest_decision_rule (s : SlidingLog) (now₁ now₂ : TimePoint)
    (hsize : s.timestamps.length < 2147483648) :
    ((s.allowRequest now₁ now₂).1 = true ↔
      ((s.cleanup now₁).timestamps.length : Int) < s.limit) ∧
    ((s.allowRequest now₁ now₂).1 = true →
      (s.allowRequest now₁ now₂).2.timestamps = (s.cleanup now₁).timestamps ++ [now₂]) ∧
    ((s.allowRequest now₁ now₂).1 = false →
      (s.allowRequest now₁ now₂).2.timestamps = (s.cleanup now₁).timestamps) ∧
    (s.allowRequest now₁ now₂).2.limit = s.limit ∧
    (s.allowRequest now₁ now₂).2.windowSize = s.windowSize := by
  have hp := popExpired_length_le now₁ s.windowSize s.timestamps
  have hlt : (SlidingLog.popExpired now₁ s.windowSize s.timestamps).length < 2147483648 := by
    omega
  refine ⟨?_, ?_, ?_, allowRequest_limit s now₁ now₂, allowRequest_windowSize s now₁ now₂⟩
  · by_cases h : toInt (SlidingLog.popExpired now₁ s.windowSize s.timestamps).length < s.limit
    · rw [allowRequest_true s now₁ now₂ h]
      rw [toInt_of_lt hlt] at h
      simpa [SlidingLog.cleanup] using h
    · rw [allowRequest_false s now₁ now₂ h]
      rw [toInt_of_lt hlt] at h
      simpa [SlidingLog.cleanup] using h
  · by_cases h : toInt (SlidingLog.popExpired now₁ s.windowSize s.timestamps).length < s.limit
    · rw [allowRequest_true s now₁ now₂ h]
      intro _
      rfl
    · rw [allowRequest_false s now₁ now₂ h]
      intro hf
      simp at hf
  · by_cases h : toInt (SlidingLog.popExpired now₁ s.windowSize s.timestamps).length < s.limit
    · rw [allowRequest_true s now₁ now₂ h]
      intro hf
      simp at hf
    · rw [allowRequest_false s now₁ now₂ h]
      intro _
      rfl

/-- Witness for C5: a log of three timestamps with limit 3 and window 1000 ms,
called at 1050 ms: two entries are pruned and the call is admitted. -/
theorem allowRequest_decision_rule_witness :
    ([0, 50, 100] : List TimePoint).length < 2147483648 ∧
    ((SlidingLog.mk [0, 50, 100] 3 1000).allowRequest 1050 1051).1 = true ∧
    ((SlidingLog.mk [0, 50, 100] 3 1000).allowRequest 1050 1051).2.timestamps = [100, 1051] :=
  ⟨by decide,
    ((allowRequest_decision_rule (SlidingLog.mk [0, 50, 100] 3 1000) 1050 1051
      (by decide)).1).2 (by decide!),
    by decide!⟩

/-- C9, as stated, fails for a window whose nanosecond count does not fit
`int64_t`: with a window of 9223372036855 ms the front timestamp 0 is popped at
the clock reading 1 ms although `1 - 0 < windowSize`, and with limit 1 the call
at 1 ms, inside `[t0, t0 + w)` for `t0 = 0`, is admitted. -/
theorem window_boundary_half_open_counterexample :
    (1 : TimePoint) - 0 < (((9223372036855 : Int)) : ℚ) ∧
    ((SlidingLog.mk [0] 1 9223372036855).cleanup 1).timestamps = [] ∧
    (SlidingLog.new 1 9223372036855).allowRequest 0 0 =
      (true, SlidingLog.mk [0] 1 9223372036855) ∧
    ((SlidingLog.mk [0] 1 9223372036855).allowRequest 1 1).1 = true := by
  decide!

/-- C9, amended. Half-open window boundary, for every window size whose
nanosecond count fits `int64_t` (at most 9223372036854 ms in absolute value): a
front timestamp `t` with `now - t = windowSize` is popped by `cleanup` (which
then goes on with the rest), one with `now - t < windowSize` stops the pruning
and the whole log is kept; and with limit 1 and window `w > 0`, after an
admission recorded at `t0` a call whose clock reading lies in `[t0, t0 + w)` is
rejected and a call at exactly `t0 + w` is admitted. -/
theorem window_boundary_half_open (limit windowSize : Int) (t : TimePoint)
    (rest : List TimePoint) (now : TimePoint) (hfit : FitsNanos windowSize) :
    (now - t = (windowSize : ℚ) →
      ((SlidingLog.mk (t :: rest) limit windowSize).cleanup now).timestamps =
        ((SlidingLog.mk rest limit windowSize).cleanup now).timestamps) ∧
    (now - t < (windowSize : ℚ) →
      ((SlidingLog.mk (t :: rest) limit windowSize).cleanup now).timestamps = t :: rest) ∧
    (0 < windowSize →
      ∀ t0 : TimePoint,
        (∀ n₁ : TimePoint, ((SlidingLog.new 1 windowSize).allowRequest n₁ t0) =
          (true, SlidingLog.mk [t0] 1 windowSize)) ∧
        (∀ n₁ n₂ : TimePoint, t0 ≤ n₁ → n₁ < t0 + (windowSize : ℚ) →
          ((SlidingLog.mk [t0] 1 windowSize).allowRequest n₁ n₂) =
            (false, SlidingLog.mk [t0] 1 windowSize)) ∧
        (∀ n₂ : TimePoint,
          ((SlidingLog.mk [t0] 1 windowSize).allowRequest (t0 + (windowSize : ℚ)) n₂) =
            (true, SlidingLog.mk [n₂] 1 windowSize))) := by
  refine ⟨?_, ?_, ?_⟩
  · intro h
    simp only [SlidingLog.cleanup, SlidingLog.popExpired]
    rw [if_pos ((expired_iff_of_fits now t hfit).mpr (by rw [h]))]
  · intro h
    simp only [SlidingLog.cleanup, SlidingLog.popExpired]
    rw [if_neg (fun hexp => absurd ((expired_iff_of_fits now t hfit).mp hexp) (by linarith))]
  · intro hw t0
    have hwq : (0 : ℚ) < (windowSize : ℚ) := by exact_mod_cast hw
    refine ⟨?_, ?_, ?_⟩
    · intro n₁
      rw [allowRequest_true _ _ _ (by simp [SlidingLog.new, SlidingLog.popExpired, toInt_of_lt])]
      simp [SlidingLog.new, SlidingLog.popExpired]
    · intro n₁ n₂ h1 h2
      have hkeep : SlidingLog.popExpired n₁ windowSize [t0] = [t0] := by
        simp only [SlidingLog.popExpired]
        rw [if_neg (fun hexp =>
          absurd ((expired_iff_of_fits n₁ t0 hfit).mp hexp) (by linarith))]
      rw [allowRequest_false _ _ _ (by simp [hkeep, toInt_of_lt])]
      simp [hkeep]
    · intro n₂
      have hpop : SlidingLog.popExpired (t0 + (windowSize : ℚ)) windowSize [t0] = [] := by
        simp only [SlidingLog.popExpired]
        rw [if_pos ((expired_iff_of_fits _ t0 hfit).mpr (by linarith))]
      rw [allowRequest_true _ _ _ (by simp [hpop, toInt_of_lt])]
      simp [hpop]

/-- Witness for C9, amended: window 2000 ms, an admission recorded at 100 ms: the
call at 2099 ms is rejected, the call at 2100 ms is admitted. -/
theorem window_boundary_half_open_witness :
    ((SlidingLog.mk [100, 150] 5 2000).cleanup 2100).timestamps = [150] ∧
    ((SlidingLog.mk [100, 150] 5 2000).cleanup 2099).timestamps = [100, 150] ∧
    ((SlidingLog.mk [100] 1 2000).allowRequest 2099 2099).1 = false ∧
    ((SlidingLog.mk [100] 1 2000).allowRequest (100 + ((2000 : Int) : ℚ)) 2100).1 = true :=
  ⟨((window_boundary_half_open 5 2000 100 [150] 2100 (by decide)).1
      (by norm_num)).trans (by decide!),
    (window_boundary_half_open 5 2000 100 [150] 2099 (by decide)).2.1 (by norm_num),
    congrArg Prod.fst
      (((window_boundary_half_open 5 2000 100 [] 0 (by decide)).2.2 (by decide) 100).2.1
        2099 2099 (by norm_num) (by norm_num)),
    congrArg Prod.fst
      (((window_boundary_half_open 5 2000 100 [] 0 (by decide)).2.2 (by decide) 100).2.2
        2100)⟩

/-! ## Lemmas on double arithmetic -/

theorem pow2_eq_zpow (e : Int) : pow2 e = (2 : ℚ) ^ e := by
  cases e with
  | ofNat n =>
    simp only [pow2]
    push_cast
    rw [Int.ofNat_eq_coe, zpow_natCast]
  | negSucc n =>
    simp only [pow2]
    push_cast
    rw [zpow_negSucc, one_div]

theorem pow2_pos (e : Int) : 0 < pow2 e := by
  rw [pow2_eq_zpow]
  positivity

theorem pow2_add (a b : Int) : pow2 (a + b) = pow2 a * pow2 b := by
  simp only [pow2_eq_zpow]
  exact zpow_add₀ (by norm_num) a b

theorem pow2_le_pow2 {a b : Int} (h : a ≤ b) : pow2 a ≤ pow2 b := by
  simp only [pow2_eq_zpow]
  exact zpow_le_zpow_right₀ (by norm_num) h

theorem pow2_lt_pow2_iff {a b : Int} : pow2 a < pow2 b ↔ a < b := by
  simp only [pow2_eq_zpow]
  exact zpow_lt_zpow_iff_right₀ (by norm_num)

theorem pow2_natCast (n : Nat) : pow2 (n : Int) = ((2 ^ n : Nat) : ℚ) := rfl

theorem log2Fuel_spec (fuel n : Nat) (hf : n ≤ fuel) (hn : n ≠ 0) :
    2 ^ log2Fuel fuel n ≤ n ∧ n < 2 ^ (log2Fuel fuel n + 1) := by
  induction fuel generalizing n with
  | zero => omega
  | succ f ih =>
    simp only [log2Fuel]
    by_cases h2 : n < 2
    · rw [if_pos h2]
      simp only [pow_zero, zero_add, pow_one]
      omega
    · rw [if_neg h2]
      have hh := ih (n / 2) (by omega) (by omega)
      obtain ⟨h1, h3⟩ := hh
      constructor
      · rw [pow_succ]
        omega
      · rw [pow_succ]
        omega

theorem natLog2_spec (n : Nat) (hn : n ≠ 0) :
    2 ^ natLog2 n ≤ n ∧ n < 2 ^ (natLog2 n + 1) :=
  log2Fuel_spec n n (le_refl n) hn

theorem abs_eq_natAbs_div_den (q : ℚ) : |q| = (q.num.natAbs : ℚ) / (q.den : ℚ) := by
  have h := Rat.num_div_den q
  have hd : (0 : ℚ) < (q.den : ℚ) := by exact_mod_cast q.den_pos
  conv_lhs => rw [← h]
  rw [abs_div, abs_of_pos hd, Nat.cast_natAbs]
  push_cast
  rfl

theorem ilog2_spec (q : ℚ) (hq : q ≠ 0) :
    pow2 (ilog2 q) ≤ |q| ∧ |q| < pow2 (ilog2 q + 1) := by
  have hnum : q.num.natAbs ≠ 0 := by
    rw [Ne, Int.natAbs_eq_zero, Rat.num_eq_zero]
    exact hq
  have hden : q.den ≠ 0 := q.den_nz
  obtain ⟨a1, a2⟩ := natLog2_spec q.num.natAbs hnum
  obtain ⟨b1, b2⟩ := natLog2_spec q.den hden
  have hd : (0 : ℚ) < (q.den : ℚ) := by exact_mod_cast q.den_pos
  have habs := abs_eq_natAbs_div_den q
  have a1q : ((2 : ℚ) ^ natLog2 q.num.natAbs) ≤ (q.num.natAbs : ℚ) := by exact_mod_cast a1
  have a2q : (q.num.natAbs : ℚ) < (2 : ℚ) ^ (natLog2 q.num.natAbs + 1) := by exact_mod_cast a2
  have b1q : ((2 : ℚ) ^ natLog2 q.den) ≤ (q.den : ℚ) := by exact_mod_cast b1
  have b2q : (q.den : ℚ) < (2 : ℚ) ^ (natLog2 q.den + 1) := by exact_mod_cast b2
  have hpa : (0 : ℚ) < (2 : ℚ) ^ natLog2 q.num.natAbs := by positivity
  have hpb : (0 : ℚ) < (2 : ℚ) ^ natLog2 q.den := by positivity
  have hE : ∀ k : Int, pow2 ((natLog2 q.num.natAbs : Int) - (natLog2 q.den : Int) + k) =
      (2 : ℚ) ^ natLog2 q.num.natAbs / (2 : ℚ) ^ natLog2 q.den * pow2 k := by
    intro k
    rw [pow2_add, pow2_eq_zpow, zpow_sub₀ (by norm_num), zpow_natCast, zpow_natCast]
  have hupper : |q| < pow2 ((natLog2 q.num.natAbs : Int) - (natLog2 q.den : Int) + 1) := by
    rw [hE 1, habs]
    have h2 : pow2 1 = 2 := by rw [pow2_eq_zpow]; norm_num
    rw [h2, div_lt_iff₀ hd]
    have : (2 : ℚ) ^ natLog2 q.num.natAbs / (2 : ℚ) ^ natLog2 q.den * 2 * (q.den : ℚ)
        ≥ (2 : ℚ) ^ natLog2 q.num.natAbs * 2 := by
      rw [ge_iff_le, div_mul_eq_mul_div, div_mul_eq_mul_div, le_div_iff₀ hpb]
      nlinarith
    rw [pow_succ] at a2q
    linarith
  have hlower : pow2 ((natLog2 q.num.natAbs : Int) - (natLog2 q.den : Int) + (-1)) < |q| := by
    rw [hE (-1), habs]
    have h2 : pow2 (-1) = 1 / 2 := by rw [pow2_eq_zpow]; norm_num
    rw [h2, lt_div_iff₀ hd]
    have : (2 : ℚ) ^ natLog2 q.num.natAbs / (2 : ℚ) ^ natLog2 q.den * (1 / 2) * (q.den : ℚ)
        < (2 : ℚ) ^ natLog2 q.num.natAbs := by
      rw [div_mul_eq_mul_div, div_mul_eq_mul_div, div_lt_iff₀ hpb]
      rw [pow_succ] at b2q
      nlinarith
    linarith
  unfold ilog2
  simp only []
  split
  · rename_i h
    exact ⟨h, hupper⟩
  · rename_i h
    constructor
    · have := hlower
      rw [show ((natLog2 q.num.natAbs : Int) - (natLog2 q.den : Int) + (-1)) =
        ((natLog2 q.num.natAbs : Int) - (natLog2 q.den : Int) - 1) by ring] at this
      exact le_of_lt this
    · rw [show ((natLog2 q.num.natAbs : Int) - (natLog2 q.den : Int) - 1 + 1) =
        ((natLog2 q.num.natAbs : Int) - (natLog2 q.den : Int)) by ring]
      exact not_le.mp h

theorem roundHalfEven_intCast (n : Int) : roundHalfEven (n : ℚ) = n := by
  unfold roundHalfEven
  simp only [Int.floor_intCast, sub_self]
  rw [if_pos (by norm_num)]

theorem floor_le_roundHalfEven (q : ℚ) : ⌊q⌋ ≤ roundHalfEven q := by
  unfold roundHalfEven
  simp only []
  split
  · exact le_refl _
  · split
    · omega
    · split <;> omega

theorem roundHalfEven_le_floor_succ (q : ℚ) : roundHalfEven q ≤ ⌊q⌋ + 1 := by
  unfold roundHalfEven
  simp only []
  split
  · omega
  · split
    · omega
    · split <;> omega

theorem le_roundHalfEven {N : Int} {q : ℚ} (h : (N : ℚ) ≤ q) : N ≤ roundHalfEven q :=
  le_trans (Int.le_floor.mpr h) (floor_le_roundHalfEven q)

theorem roundHalfEven_le {N : Int} {q : ℚ} (h : q ≤ (N : ℚ)) : roundHalfEven q ≤ N := by
  rcases eq_or_lt_of_le h with h1 | h1
  · rw [h1, roundHalfEven_intCast]
  · have : ⌊q⌋ < N := Int.floor_lt.mpr h1
    have := roundHalfEven_le_floor_succ q
    omega

theorem fl_zero : fl 0 = 0 := by
  unfold fl
  rw [if_pos rfl]

theorem fl_nonneg {x : ℚ} (h : 0 ≤ x) : 0 ≤ fl x := by
  unfold fl
  split
  · exact le_refl _
  · simp only []
    have hp := pow2_pos (max (ilog2 x) (-1022) - 52)
    have hq : ((0 : Int) : ℚ) ≤ x / pow2 (max (ilog2 x) (-1022) - 52) := by
      simpa using div_nonneg h (le_of_lt hp)
    have hr : (0 : Int) ≤ roundHalfEven (x / pow2 (max (ilog2 x) (-1022) - 52)) :=
      le_roundHalfEven hq
    have hr2 : (0 : ℚ) ≤ (roundHalfEven (x / pow2 (max (ilog2 x) (-1022) - 52)) : ℚ) := by
      exact_mod_cast hr
    exact mul_nonneg hr2 (le_of_lt hp)

theorem fl_nonpos {x : ℚ} (h : x ≤ 0) : fl x ≤ 0 := by
  unfold fl
  split
  · exact le_refl _
  · simp only []
    have hp := pow2_pos (max (ilog2 x) (-1022) - 52)
    have hq : x / pow2 (max (ilog2 x) (-1022) - 52) ≤ ((0 : Int) : ℚ) := by
      simpa using div_nonpos_of_nonpos_of_nonneg h (le_of_lt hp)
    have hr : roundHalfEven (x / pow2 (max (ilog2 x) (-1022) - 52)) ≤ (0 : Int) :=
      roundHalfEven_le hq
    have hr2 : (roundHalfEven (x / pow2 (max (ilog2 x) (-1022) - 52)) : ℚ) ≤ 0 := by
      exact_mod_cast hr
    exact mul_nonpos_of_nonpos_of_nonneg hr2 (le_of_lt hp)

/-- Every number `m * 2 ^ j` with `|m| < 2 ^ 53` and `j ≥ -1074` is a `double`:
rounding leaves it unchanged. -/
theorem fl_of_representable (m j : Int) (hm : |m| < 9007199254740992) (hj : -1074 ≤ j) :
    fl ((m : ℚ) * pow2 j) = (m : ℚ) * pow2 j := by
  by_cases hm0 : m = 0
  · rw [hm0]
    simp [fl_zero]
  have hpj := pow2_pos j
  have hx0 : (m : ℚ) * pow2 j ≠ 0 := by
    have : (m : ℚ) ≠ 0 := by exact_mod_cast hm0
    exact mul_ne_zero this (ne_of_gt hpj)
  obtain ⟨s1, -⟩ := ilog2_spec _ hx0
  -- the exponent is at most 52 + j
  have habs : |(m : ℚ) * pow2 j| < pow2 (53 + j) := by
    rw [abs_mul, abs_of_pos hpj, pow2_add]
    have h53 : pow2 53 = 9007199254740992 := by
      rw [show (53 : Int) = ((53 : Nat) : Int) by rfl, pow2_natCast]
      norm_num
    rw [h53]
    have : |(m : ℚ)| < 9007199254740992 := by exact_mod_cast hm
    exact mul_lt_mul_of_pos_right this hpj
  have he : ilog2 ((m : ℚ) * pow2 j) < 53 + j :=
    pow2_lt_pow2_iff.mp (lt_of_le_of_lt s1 habs)
  have hE : max (ilog2 ((m : ℚ) * pow2 j)) (-1022) - 52 ≤ j := by
    have : max (ilog2 ((m : ℚ) * pow2 j)) (-1022) ≤ 52 + j := max_le (by omega) (by omega)
    omega
  unfold fl
  rw [if_neg hx0]
  simp only []
  generalize max (ilog2 ((m : ℚ) * pow2 j)) (-1022) - 52 = E at hE
  obtain ⟨d, hd⟩ : ∃ d : Nat, j = E + (d : Int) := ⟨(j - E).toNat, by omega⟩
  have hpE := pow2_pos E
  have hdiv : (m : ℚ) * pow2 j / pow2 E = ((m * (2 ^ d : Nat) : Int) : ℚ) := by
    rw [hd, pow2_add, pow2_natCast]
    push_cast
    field_simp
    ring
  rw [hdiv, roundHalfEven_intCast, hd, pow2_add, pow2_natCast]
  push_cast
  ring

theorem fl_intCast (k : Int) (hk : |k| < 9007199254740992) : fl (k : ℚ) = (k : ℚ) := by
  have := fl_of_representable k 0 hk (by norm_num)
  have h0 : pow2 0 = 1 := by rw [pow2_eq_zpow]; norm_num
  rw [h0, mul_one] at this
  exact this

/-- The result of rounding a positive number is `m * 2 ^ j` with `0 ≤ m ≤ 2 ^ 53`
and `j ≥ -1074`; when `j > 0` the result is at least `2 ^ 53`. -/
theorem fl_pos_repr (y : ℚ) (hy : 0 < y) :
    ∃ m j : Int, fl y = (m : ℚ) * pow2 j ∧ 0 ≤ m ∧ m ≤ 9007199254740992 ∧ -1074 ≤ j ∧
      (0 < j → (9007199254740992 : ℚ) ≤ fl y) := by
  have hy0 : y ≠ 0 := ne_of_gt hy
  obtain ⟨s1, s2⟩ := ilog2_spec y hy0
  rw [abs_of_pos hy] at s1 s2
  have h53 : pow2 53 = 9007199254740992 := by
    rw [show (53 : Int) = ((53 : Nat) : Int) by rfl, pow2_natCast]
    norm_num
  have h52 : pow2 52 = 4503599627370496 := by
    rw [show (52 : Int) = ((52 : Nat) : Int) by rfl, pow2_natCast]
    norm_num
  have hfl : fl y = (roundHalfEven (y / pow2 (max (ilog2 y) (-1022) - 52)) : ℚ) *
      pow2 (max (ilog2 y) (-1022) - 52) := by
    unfold fl
    rw [if_neg hy0]
  have hp := pow2_pos (max (ilog2 y) (-1022) - 52)
  refine ⟨roundHalfEven (y / pow2 (max (ilog2 y) (-1022) - 52)),
    max (ilog2 y) (-1022) - 52, hfl, ?_, ?_, ?_, ?_⟩
  · apply le_roundHalfEven
    simpa using div_nonneg (le_of_lt hy) (le_of_lt hp)
  · apply roundHalfEven_le
    rw [div_le_iff₀ hp]
    have h1 : y < pow2 (max (ilog2 y) (-1022) + 1) :=
      lt_of_lt_of_le s2 (pow2_le_pow2 (by have := le_max_left (ilog2 y) (-1022); omega))
    have h2 : pow2 (max (ilog2 y) (-1022) + 1) =
        9007199254740992 * pow2 (max (ilog2 y) (-1022) - 52) := by
      rw [← h53, ← pow2_add]
      congr 1
      ring
    push_cast
    rw [← h2]
    exact le_of_lt h1
  · have := le_max_right (ilog2 y) (-1022)
    omega
  · intro hj
    have hmax : max (ilog2 y) (-1022) = ilog2 y := by
      apply max_eq_left
      by_contra hlt
      have : max (ilog2 y) (-1022) = -1022 := max_eq_right (by omega)
      omega
    rw [hmax] at hj hfl hp
    rw [hfl]
    have hge : ((4503599627370496 : Int) : ℚ) ≤ y / pow2 (ilog2 y - 52) := by
      rw [le_div_iff₀ hp]
      have : pow2 (ilog2 y) = 4503599627370496 * pow2 (ilog2 y - 52) := by
        rw [← h52, ← pow2_add]
        congr 1
        ring
      push_cast
      rw [← this]
      exact s1
    have hm : (4503599627370496 : Int) ≤ roundHalfEven (y / pow2 (ilog2 y - 52)) :=
      le_roundHalfEven hge
    have hm2 : (4503599627370496 : ℚ) ≤ (roundHalfEven (y / pow2 (ilog2 y - 52)) : ℚ) := by
      exact_mod_cast hm
    have hp1 : pow2 1 ≤ pow2 (ilog2 y - 52) := pow2_le_pow2 (by omega)
    have h1 : pow2 1 = 2 := by rw [pow2_eq_zpow]; norm_num
    rw [h1] at hp1
    nlinarith

/-- The debit `tokens - 1.0` is exact on a `double` in `[1, 2 ^ 53)`. -/
theorem fl_sub_one (y : ℚ) (h1 : 1 ≤ fl y) (h2 : fl y < 9007199254740992) :
    fl (fl y - 1) = fl y - 1 := by
  have hy : 0 < y := by
    by_contra hn
    have := fl_nonpos (not_lt.mp hn)
    linarith
  obtain ⟨m, j, hfl, hm0, hm1, hj, hbig⟩ := fl_pos_repr y hy
  have hj0 : j ≤ 0 := by
    by_contra hn
    have := hbig (by omega)
    linarith
  obtain ⟨d, hd⟩ : ∃ d : Nat, j = -(d : Int) := ⟨(-j).toNat, by omega⟩
  have hpj := pow2_pos j
  have hone : (1 : ℚ) = ((2 ^ d : Nat) : ℚ) * pow2 j := by
    rw [← pow2_natCast, ← pow2_add, hd]
    simp [pow2_eq_zpow]
  have hsub : fl y - 1 = ((m - (2 ^ d : Nat) : Int) : ℚ) * pow2 j := by
    rw [hfl]
    push_cast
    nth_rewrite 1 [hone]
    push_cast
    ring
  rw [hsub]
  apply fl_of_representable _ _ _ hj
  have hnonneg : (0 : ℚ) ≤ ((m - (2 ^ d : Nat) : Int) : ℚ) := by
    have : (0 : ℚ) ≤ ((m - (2 ^ d : Nat) : Int) : ℚ) * pow2 j := by
      rw [← hsub]
      linarith
    exact nonneg_of_mul_nonneg_left this hpj
  have hnn : (0 : Int) ≤ m - (2 ^ d : Nat) := by exact_mod_cast hnonneg
  have hpos : (0 : Int) < ((2 ^ d : Nat) : Int) := by positivity
  rw [abs_of_nonneg hnn]
  omega

theorem roundHalfEven_error (q : ℚ) : |(roundHalfEven q : ℚ) - q| ≤ 1 / 2 := by
  have h1 := Int.floor_le q
  have h2 := Int.lt_floor_add_one q
  unfold roundHalfEven
  simp only []
  split
  · rename_i h
    rw [abs_le]
    constructor <;> linarith
  · rename_i h
    split
    · rename_i h'
      rw [abs_le]
      push_cast
      constructor <;> linarith
    · rename_i h'
      have he : q - (⌊q⌋ : ℚ) = 1 / 2 := le_antisymm (not_lt.mp h') (not_lt.mp h)
      split
      · rw [abs_le]
        constructor <;> linarith
      · rw [abs_le]
        push_cast
        constructor <;> linarith

/-- The rounding `fl` returns a multiple of the unit in the last place of its
argument that is nearest to it: the error is at most half a unit. -/
theorem fl_error (x : ℚ) (hx : x ≠ 0) :
    |fl x - x| ≤ pow2 (max (ilog2 x) (-1022) - 52) / 2 := by
  have hp := pow2_pos (max (ilog2 x) (-1022) - 52)
  unfold fl
  rw [if_neg hx]
  simp only []
  have h := roundHalfEven_error (x / pow2 (max (ilog2 x) (-1022) - 52))
  have e : (roundHalfEven (x / pow2 (max (ilog2 x) (-1022) - 52)) : ℚ) *
      pow2 (max (ilog2 x) (-1022) - 52) - x =
      ((roundHalfEven (x / pow2 (max (ilog2 x) (-1022) - 52)) : ℚ) -
        x / pow2 (max (ilog2 x) (-1022) - 52)) * pow2 (max (ilog2 x) (-1022) - 52) := by
    field_simp
  rw [e, abs_mul, abs_of_pos hp]
  calc |(roundHalfEven (x / pow2 (max (ilog2 x) (-1022) - 52)) : ℚ) -
        x / pow2 (max (ilog2 x) (-1022) - 52)| * pow2 (max (ilog2 x) (-1022) - 52)
      ≤ 1 / 2 * pow2 (max (ilog2 x) (-1022) - 52) :=
        mul_le_mul_of_nonneg_right h (le_of_lt hp)
    _ = pow2 (max (ilog2 x) (-1022) - 52) / 2 := by ring

/-- Values of the rounding: one tenth, five thousandths, a tie above `2 ^ 53` that
goes to the even neighbour, and the smallest subnormal numbers. -/
theorem fl_values :
    fl (1 / 10) = 3602879701896397 / 36028797018963968 ∧
    fl (5 / 1000) = 5764607523034235 / 1152921504606846976 ∧
    fl 9007199254740993 = 9007199254740992 ∧
    fl 9007199254740995 = 9007199254740996 ∧
    fl (-7) = -7 ∧
    fl (pow2 (-1074)) = pow2 (-1074) ∧
    fl (pow2 (-1075)) = 0 ∧
    fl (3 * pow2 (-1075)) = 2 * pow2 (-1074) ∧
    fl (3 * fl (fl (1000 / 3) / 1000)) = 1 := by
  decide!

/-! ## Lemmas on TokenBucket -/

theorem stdMin_eq_min (a b : ℚ) : TokenBucket.stdMin a b = min a b := by
  unfold TokenBucket.stdMin
  split
  · rw [min_eq_right (le_of_lt (by assumption))]
  · rw [min_eq_left (not_lt.mp (by assumption))]

theorem nonDecreasing_append_left {l₁ l₂ : List TimePoint} (h : NonDecreasing (l₁ ++ l₂)) :
    NonDecreasing l₁ := by
  unfold NonDecreasing at h ⊢
  exact (List.pairwise_append.mp h).1

theorem elapsedMs_nonneg {last now : TimePoint} (h : last ≤ now) :
    0 ≤ TokenBucket.elapsedMs last now := by
  unfold TokenBucket.elapsedMs
  apply fl_nonneg
  apply div_nonneg _ (by norm_num)
  apply fl_nonneg
  nlinarith

theorem refillTokens_tokens (b : TokenBucket) (now : TimePoint) :
    (b.refillTokens now).tokens =
      min (b.capacity : ℚ)
        (fl (b.tokens + fl (TokenBucket.elapsedMs b.lastRefillTime now * b.refillRatePerMs))) := by
  unfold TokenBucket.refillTokens
  simp only [stdMin_eq_min]

theorem bucket_allowRequest_true (b : TokenBucket) (now : TimePoint)
    (h : (b.refillTokens now).tokens ≥ 1) :
    b.allowRequest now =
      (true, { b.refillTokens now with tokens := fl ((b.refillTokens now).tokens - 1) }) := by
  unfold TokenBucket.allowRequest
  simp only []
  rw [if_pos h]

theorem bucket_allowRequest_false (b : TokenBucket) (now : TimePoint)
    (h : ¬ (b.refillTokens now).tokens ≥ 1) :
    b.allowRequest now = (false, b.refillTokens now) := by
  unfold TokenBucket.allowRequest
  simp only []
  rw [if_neg h]

theorem refillTokens_le_capacity (b : TokenBucket) (now : TimePoint) :
    (b.refillTokens now).tokens ≤ (b.capacity : ℚ) := by
  rw [refillTokens_tokens]
  exact min_le_left _ _

theorem refillTokens_nonneg (b : TokenBucket) (now : TimePoint)
    (hc : 0 ≤ (b.capacity : ℚ)) (ht : 0 ≤ b.tokens) (hr : 0 ≤ b.refillRatePerMs)
    (hn : b.lastRefillTime ≤ now) : 0 ≤ (b.refillTokens now).tokens := by
  rw [refillTokens_tokens]
  apply le_min hc
  apply fl_nonneg
  have := fl_nonneg (mul_nonneg (elapsedMs_nonneg hn) hr)
  linarith

/-- The debit of an admitted call is exact when the capacity is an `int`:
`tokens - 1.0` is computed without rounding. -/
theorem debit_exact (b : TokenBucket) (now : TimePoint) (hint : IsInt b.capacity)
    (h : (b.refillTokens now).tokens ≥ 1) :
    fl ((b.refillTokens now).tokens - 1) = (b.refillTokens now).tokens - 1 := by
  unfold IsInt at hint
  have hcapq : (b.capacity : ℚ) < 2147483648 := by exact_mod_cast hint.2
  rw [refillTokens_tokens] at h ⊢
  rcases le_total (b.capacity : ℚ)
      (fl (b.tokens + fl (TokenBucket.elapsedMs b.lastRefillTime now * b.refillRatePerMs)))
    with hle | hle
  · rw [min_eq_left hle] at h ⊢
    have h1 : (1 : Int) ≤ b.capacity := by exact_mod_cast h
    have := fl_intCast (b.capacity - 1) (by rw [abs_of_nonneg (by omega)]; omega)
    push_cast at this
    exact this
  · rw [min_eq_right hle] at h ⊢
    exact fl_sub_one _ h (by linarith)

/-- An admitted call, for an `int` capacity: the refill followed by the exact
debit of one token. -/
theorem bucket_allowRequest_granted (b : TokenBucket) (now : TimePoint) (hint : IsInt b.capacity)
    (h : (b.refillTokens now).tokens ≥ 1) :
    b.allowRequest now =
      (true, { b.refillTokens now with tokens := (b.refillTokens now).tokens - 1 }) := by
  rw [bucket_allowRequest_true b now h, debit_exact b now hint h]

/-- One call keeps the configuration, moves `lastRefillTime` to the clock reading
and, for an `int` capacity and when time does not run backwards, keeps
`0 ≤ tokens ≤ capacity`. -/
theorem bucket_step (b : TokenBucket) (now : TimePoint) :
    (b.allowRequest now).2.capacity = b.capacity ∧
    (b.allowRequest now).2.refillRatePerMs = b.refillRatePerMs ∧
    (b.allowRequest now).2.lastRefillTime = now ∧
    (IsInt b.capacity → (b.allowRequest now).2.tokens ≤ (b.capacity : ℚ)) ∧
    (IsInt b.capacity → 0 ≤ (b.capacity : ℚ) → 0 ≤ b.tokens → 0 ≤ b.refillRatePerMs →
      b.lastRefillTime ≤ now → 0 ≤ (b.allowRequest now).2.tokens) := by
  have hle := refillTokens_le_capacity b now
  by_cases h : (b.refillTokens now).tokens ≥ 1
  · rw [bucket_allowRequest_true b now h]
    refine ⟨rfl, rfl, rfl, ?_, ?_⟩
    · intro hint
      simp only []
      rw [debit_exact b now hint h]
      linarith
    · intro hint _ _ _ _
      simp only []
      rw [debit_exact b now hint h]
      linarith
  · rw [bucket_allowRequest_false b now h]
    refine ⟨rfl, rfl, rfl, fun _ => hle, ?_⟩
    intro _ hc ht hr hn
    exact refillTokens_nonneg b now hc ht hr hn

/-- The invariant of a run from a state with `0 ≤ tokens ≤ capacity`, for an `int`
capacity and under non-decreasing clock readings: the range of `tokens` is kept,
the configuration is unchanged and `lastRefillTime` is the last clock reading. -/
theorem bucket_run_invariant (b : TokenBucket) (calls : List TimePoint)
    (hint : IsInt b.capacity)
    (hc : 0 ≤ (b.capacity : ℚ)) (hr : 0 ≤ b.refillRatePerMs)
    (ht0 : 0 ≤ b.tokens) (ht1 : b.tokens ≤ (b.capacity : ℚ))
    (hmono : NonDecreasing (b.lastRefillTime :: calls)) :
    (b.run calls).2.capacity = b.capacity ∧
    (b.run calls).2.refillRatePerMs = b.refillRatePerMs ∧
    (b.run calls).2.lastRefillTime = calls.getLastD b.lastRefillTime ∧
    0 ≤ (b.run calls).2.tokens ∧
    (b.run calls).2.tokens ≤ (b.capacity : ℚ) := by
  induction calls generalizing b with
  | nil => exact ⟨rfl, rfl, rfl, ht0, ht1⟩
  | cons t ts ih =>
    unfold NonDecreasing at hmono
    have hbt : b.lastRefillTime ≤ t := (List.pairwise_cons.mp hmono).1 t (by simp)
    have htail : NonDecreasing (t :: ts) := (List.pairwise_cons.mp hmono).2
    obtain ⟨s1, s2, s3, s4, s5⟩ := bucket_step b t
    have s4 := s4 hint
    have s5 := s5 hint hc ht0 hr hbt
    have hnext := ih (b.allowRequest t).2 (by rw [s1]; exact hint) (by rw [s1]; exact hc)
      (by rw [s2]; exact hr) s5 (by rw [s1]; exact s4) (by rw [s3]; exact htail)
    rw [s1, s2, s3] at hnext
    obtain ⟨n1, n2, n3, n4, n5⟩ := hnext
    have hlast : (t :: ts).getLastD b.lastRefillTime = ts.getLastD t := by
      cases ts <;> simp [List.getLastD]
    simp only [TokenBucket.run]
    rw [hlast]
    exact ⟨n1, n2, n3, n4, n5⟩

theorem new_bucket_fields (capacity : Int) (rps : ℚ) (t0 : TimePoint) :
    (TokenBucket.new capacity rps t0).capacity = capacity ∧
    (TokenBucket.new capacity rps t0).tokens = (capacity : ℚ) ∧
    (TokenBucket.new capacity rps t0).refillRatePerMs = fl (fl rps / 1000) ∧
    (TokenBucket.new capacity rps t0).lastRefillTime = t0 :=
  ⟨rfl, rfl, rfl, rfl⟩

theorem new_bucket_rate_nonneg (capacity : Int) (rps : ℚ) (t0 : TimePoint) (h : 0 ≤ rps) :
    0 ≤ (TokenBucket.new capacity rps t0).refillRatePerMs := by
  rw [(new_bucket_fields capacity rps t0).2.2.1]
  exact fl_nonneg (div_nonneg (fl_nonneg h) (by norm_num))

theorem new_bucket_rate_zero (capacity : Int) (t0 : TimePoint) :
    (TokenBucket.new capacity 0 t0).refillRatePerMs = 0 := by
  rw [(new_bucket_fields capacity 0 t0).2.2.1, fl_zero, zero_div, fl_zero]

/-- With a zero refill rate a bucket holding `k` tokens (`k ≤ capacity`, an `int`)
admits exactly the first `k` calls of any run. -/
theorem bucket_run_zero_rate (b : TokenBucket) (k : Nat) (calls : List TimePoint)
    (hint : IsInt b.capacity)
    (hr : b.refillRatePerMs = 0) (hk : b.tokens = (k : ℚ)) (hcap : (k : ℚ) ≤ (b.capacity : ℚ)) :
    (b.run calls).1 =
      List.replicate (min calls.length k) true ++ List.replicate (calls.length - k) false ∧
    (b.run calls).2.tokens = ((k - calls.length : Nat) : ℚ) := by
  induction calls generalizing b k with
  | nil => simp [TokenBucket.run, hk]
  | cons t ts ih =>
    have hkint : ((k : Int) : ℚ) ≤ (b.capacity : ℚ) := by exact_mod_cast hcap
    have hkle : (k : Int) ≤ b.capacity := by exact_mod_cast hkint
    have hflk : fl (k : ℚ) = (k : ℚ) := by
      have := fl_intCast (k : Int) (by unfold IsInt at hint; rw [abs_of_nonneg (by omega)]; omega)
      exact_mod_cast this
    have hrefill : (b.refillTokens t).tokens = (k : ℚ) := by
      rw [refillTokens_tokens, hr, hk, mul_zero, fl_zero, add_zero, hflk]
      exact min_eq_right hcap
    simp only [TokenBucket.run, List.length_cons]
    cases k with
    | zero =>
      have hrej : ¬ (b.refillTokens t).tokens ≥ 1 := by
        rw [hrefill]
        norm_num
      rw [bucket_allowRequest_false b t hrej]
      have := ih (b.refillTokens t) 0 hint hr hrefill hcap
      rw [this.1, this.2]
      simp [List.replicate_succ]
    | succ j =>
      have hadm : (b.refillTokens t).tokens ≥ 1 := by
        rw [hrefill]
        push_cast
        linarith [(Nat.cast_nonneg j : (0 : ℚ) ≤ (j : ℚ))]
      rw [bucket_allowRequest_granted b t hint hadm]
      have := ih { b.refillTokens t with tokens := (b.refillTokens t).tokens - 1 } j hint hr
          (by simp only []; rw [hrefill]; push_cast; ring)
          (by
            have e : ({ b.refillTokens t with
              tokens := (b.refillTokens t).tokens - 1 } : TokenBucket).capacity = b.capacity := rfl
            rw [e]
            push_cast at hcap
            linarith)
      rw [this.1, this.2]
      simp [List.replicate_succ, Nat.succ_min_succ]

/-! ## Lemmas on the keyed limiters -/

theorem swl_allowRequest_eq (l : SlidingWindowLogRateLimiter) (key : String)
    (n₁ n₂ : TimePoint) :
    l.allowRequest key n₁ n₂ =
      ((((l.userLogs key).getD (SlidingLog.new l.limit l.windowSize)).allowRequest n₁ n₂).1,
        { l with userLogs := fun k =>
            if k = key then
              some (((l.userLogs key).getD
                (SlidingLog.new l.limit l.windowSize)).allowRequest n₁ n₂).2
            else l.userLogs k }) := by
  unfold SlidingWindowLogRateLimiter.allowRequest
  cases h : l.userLogs key with
  | none =>
    simp only [Option.getD_none]
    congr 2
    funext k
    unfold Registry.insert
    by_cases hk : k = key
    · simp [hk]
    · simp [hk]
  | some log =>
    simp only [Option.getD_some]
    rfl

theorem tb_allowRequest_eq (l : TokenBucketRateLimiter) (key : String)
    (nowNew now : TimePoint) :
    l.allowRequest key nowNew now =
      ((((l.userBuckets key).getD
          (TokenBucket.new l.capacity l.refillRatePerSecond nowNew)).allowRequest now).1,
        { l with userBuckets := fun k =>
            if k = key then
              some (((l.userBuckets key).getD
                (TokenBucket.new l.capacity l.refillRatePerSecond nowNew)).allowRequest now).2
            else l.userBuckets k }) := by
  unfold TokenBucketRateLimiter.allowRequest
  cases h : l.userBuckets key with
  | none =>
    simp only [Option.getD_none]
    congr 2
    funext k
    unfold Registry.insert
    by_cases hk : k = key
    · simp [hk]
    · simp [hk]
  | some bucket =>
    simp only [Option.getD_some]
    rfl

theorem decisionsFor_cons (key : String) (q : String × TimePoint × TimePoint)
    (qs : List (String × TimePoint × TimePoint)) (d : Bool) (ds : List Bool) :
    decisionsFor key (q :: qs) (d :: ds) =
      if q.1 = key then d :: decisionsFor key qs ds else decisionsFor key qs ds := by
  unfold decisionsFor
  simp only [List.zip_cons_cons, List.filter_cons]
  by_cases h : q.1 = key
  · simp [h]
  · simp [h]

theorem requestsOf_cons (key : String) (q : String × TimePoint × TimePoint)
    (qs : List (String × TimePoint × TimePoint)) :
    requestsOf key (q :: qs) =
      if q.1 = key then q :: requestsOf key qs else requestsOf key qs := by
  unfold requestsOf
  simp only [List.filter_cons]
  by_cases h : q.1 = key
  · simp [h]
  · simp [h]

/-- Two sliding-window limiters with the same configuration and the same entry
for `key` return the same decisions to the requests of `key`, whatever other
keys the first one serves in between. -/
theorem swl_run_isolated (key : String) (l l' : SlidingWindowLogRateLimiter)
    (reqs : List (String × TimePoint × TimePoint))
    (hk : l.userLogs key = l'.userLogs key) (hl : l.limit = l'.limit)
    (hw : l.windowSize = l'.windowSize) :
    decisionsFor key reqs (l.run reqs).1 = (l'.run (requestsOf key reqs)).1 ∧
    (l.run reqs).2.userLogs key = (l'.run (requestsOf key reqs)).2.userLogs key := by
  induction reqs generalizing l l' with
  | nil => simpa [decisionsFor, requestsOf, SlidingWindowLogRateLimiter.run] using hk
  | cons q qs ih =>
    simp only [SlidingWindowLogRateLimiter.run]
    rw [decisionsFor_cons, requestsOf_cons]
    by_cases h : q.1 = key
    · rw [if_pos h, if_pos h]
      simp only [SlidingWindowLogRateLimiter.run]
      have e1 := swl_allowRequest_eq l q.1 q.2.1 q.2.2
      have e2 := swl_allowRequest_eq l' q.1 q.2.1 q.2.2
      rw [h] at e1 e2
      rw [h, e1, e2]
      have hsame : ((l.userLogs key).getD (SlidingLog.new l.limit l.windowSize)) =
          ((l'.userLogs key).getD (SlidingLog.new l'.limit l'.windowSize)) := by
        rw [hk, hl, hw]
      have := ih
        { l with userLogs := fun k =>
            if k = key then
              some (((l.userLogs key).getD
                (SlidingLog.new l.limit l.windowSize)).allowRequest q.2.1 q.2.2).2
            else l.userLogs k }
        { l' with userLogs := fun k =>
            if k = key then
              some (((l'.userLogs key).getD
                (SlidingLog.new l'.limit l'.windowSize)).allowRequest q.2.1 q.2.2).2
            else l'.userLogs k }
        (by simp [hsame]) hl hw
      simp only [] at this ⊢
      rw [this.1, this.2, hsame]
      exact ⟨rfl, rfl⟩
    · rw [if_neg h, if_neg h]
      have e1 := swl_allowRequest_eq l q.1 q.2.1 q.2.2
      rw [e1]
      have hne : ¬ key = q.1 := fun e => h e.symm
      exact ih
        { l with userLogs := fun k =>
            if k = q.1 then
              some (((l.userLogs q.1).getD
                (SlidingLog.new l.limit l.windowSize)).allowRequest q.2.1 q.2.2).2
            else l.userLogs k }
        l' (by simp [hne, hk]) hl hw

/-- Two token-bucket limiters with the same configuration and the same entry for
`key` return the same decisions to the requests of `key`, whatever other keys the
first one serves in between. -/
theorem tb_run_isolated (key : String) (l l' : TokenBucketRateLimiter)
    (reqs : List (String × TimePoint × TimePoint))
    (hk : l.userBuckets key = l'.userBuckets key) (hl : l.capacity = l'.capacity)
    (hw : l.refillRatePerSecond = l'.refillRatePerSecond) :
    decisionsFor key reqs (l.run reqs).1 = (l'.run (requestsOf key reqs)).1 ∧
    (l.run reqs).2.userBuckets key = (l'.run (requestsOf key reqs)).2.userBuckets key := by
  induction reqs generalizing l l' with
  | nil => simpa [decisionsFor, requestsOf, TokenBucketRateLimiter.run] using hk
  | cons q qs ih =>
    simp only [TokenBucketRateLimiter.run]
    rw [decisionsFor_cons, requestsOf_cons]
    by_cases h : q.1 = key
    · rw [if_pos h, if_pos h]
      simp only [TokenBucketRateLimiter.run]
      have e1 := tb_allowRequest_eq l q.1 q.2.1 q.2.2
      have e2 := tb_allowRequest_eq l' q.1 q.2.1 q.2.2
      rw [h] at e1 e2
      rw [h, e1, e2]
      have hsame : ((l.userBuckets key).getD
            (TokenBucket.new l.capacity l.refillRatePerSecond q.2.1)) =
          ((l'.userBuckets key).getD
            (TokenBucket.new l'.capacity l'.refillRatePerSecond q.2.1)) := by
        rw [hk, hl, hw]
      have := ih
        { l with userBuckets := fun k =>
            if k = key then
              some (((l.userBuckets key).getD
                (TokenBucket.new l.capacity l.refillRatePerSecond q.2.1)).allowRequest q.2.2).2
            else l.userBuckets k }
        { l' with userBuckets := fun k =>
            if k = key then
              some (((l'.userBuckets key).getD
                (TokenBucket.new l'.capacity l'.refillRatePerSecond q.2.1)).allowRequest
                  q.2.2).2
            else l'.userBuckets k }
        (by simp [hsame]) hl hw
      simp only [] at this ⊢
      rw [this.1, this.2, hsame]
      exact ⟨rfl, rfl⟩
    · rw [if_neg h, if_neg h]
      have e1 := tb_allowRequest_eq l q.1 q.2.1 q.2.2
      rw [e1]
      have hne : ¬ key = q.1 := fun e => h e.symm
      exact ih
        { l with userBuckets := fun k =>
            if k = q.1 then
              some (((l.userBuckets q.1).getD
                (TokenBucket.new l.capacity l.refillRatePerSecond q.2.1)).allowRequest q.2.2).2
            else l.userBuckets k }
        l' (by simp [hne, hk]) hl hw

/-! ## Claims on the keyed limiters -/

/-- C7. Key isolation, for both keyed limiters: for every registry state and two
distinct keys `A` and `B`, `allowRequest(A)` leaves the entry of `B` unchanged;
and in any interleaved run the decisions returned for `B`, and the final state of
`B`, are those of the run of the requests of `B` alone, at the same clock
readings, on the same initial limiter. -/
theorem key_isolation (A B : String) (hAB : A ≠ B) :
    (∀ (l : SlidingWindowLogRateLimiter) (n₁ n₂ : TimePoint),
      (l.allowRequest A n₁ n₂).2.userLogs B = l.userLogs B) ∧
    (∀ (l : TokenBucketRateLimiter) (nowNew now : TimePoint),
      (l.allowRequest A nowNew now).2.userBuckets B = l.userBuckets B) ∧
    (∀ (l : SlidingWindowLogRateLimiter) (reqs : List (String × TimePoint × TimePoint)),
      decisionsFor B reqs (l.run reqs).1 = (l.run (requestsOf B reqs)).1 ∧
      (l.run reqs).2.userLogs B = (l.run (requestsOf B reqs)).2.userLogs B) ∧
    (∀ (l : TokenBucketRateLimiter) (reqs : List (String × TimePoint × TimePoint)),
      decisionsFor B reqs (l.run reqs).1 = (l.run (requestsOf B reqs)).1 ∧
      (l.run reqs).2.userBuckets B = (l.run (requestsOf B reqs)).2.userBuckets B) := by
  have hBA : ¬ B = A := fun e => hAB e.symm
  refine ⟨?_, ?_, ?_, ?_⟩
  · intro l n₁ n₂
    rw [swl_allowRequest_eq]
    simp [hBA]
  · intro l nowNew now
    rw [tb_allowRequest_eq]
    simp [hBA]
  · intro l reqs
    exact swl_run_isolated B l l reqs rfl rfl rfl
  · intro l reqs
    exact tb_run_isolated B l l reqs rfl rfl rfl

/-- Witness for C7: limit 1, window 1000 ms; the requests of "bob", interleaved
with those of "alice", get the decisions true, false, true, as they do alone. -/
theorem key_isolation_witness :
    decisionsFor "bob"
        [("alice", 0, 0), ("bob", 1, 1), ("alice", 2, 2), ("bob", 3, 3), ("bob", 1001, 1001)]
        ((SlidingWindowLogRateLimiter.new 1 1000).run
          [("alice", 0, 0), ("bob", 1, 1), ("alice", 2, 2), ("bob", 3, 3),
            ("bob", 1001, 1001)]).1 =
      ((SlidingWindowLogRateLimiter.new 1 1000).run
        (requestsOf "bob"
          [("alice", 0, 0), ("bob", 1, 1), ("alice", 2, 2), ("bob", 3, 3),
            ("bob", 1001, 1001)])).1 ∧
    ((SlidingWindowLogRateLimiter.new 1 1000).run
        [("bob", 1, 1), ("bob", 3, 3), ("bob", 1001, 1001)]).1 = [true, false, true] :=
  ⟨((key_isolation "alice" "bob" (by decide)).2.2.1 (SlidingWindowLogRateLimiter.new 1 1000)
      [("alice", 0, 0), ("bob", 1, 1), ("alice", 2, 2), ("bob", 3, 3),
        ("bob", 1001, 1001)]).1,
    by decide!⟩

/-- C8. Lookup-or-create, for both keyed limiters: `allowRequest(key)` returns the
decision of the instance stored for `key` when there is one, and otherwise the
decision of a freshly constructed instance carrying the limiter's configuration;
the instance so used is what the registry holds for `key` afterwards; `key` is
then present, and every key present before the call is still present. -/
theorem lookup_or_create (key : String) (n₁ n₂ : TimePoint) :
    (∀ l : SlidingWindowLogRateLimiter,
      (∀ log, l.userLogs key = some log →
        (l.allowRequest key n₁ n₂).1 = (log.allowRequest n₁ n₂).1 ∧
        (l.allowRequest key n₁ n₂).2.userLogs key = some (log.allowRequest n₁ n₂).2) ∧
      (l.userLogs key = none →
        (l.allowRequest key n₁ n₂).1 =
          ((SlidingLog.new l.limit l.windowSize).allowRequest n₁ n₂).1 ∧
        (l.allowRequest key n₁ n₂).2.userLogs key =
          some ((SlidingLog.new l.limit l.windowSize).allowRequest n₁ n₂).2) ∧
      ((l.allowRequest key n₁ n₂).2.userLogs key).isSome = true ∧
      (∀ k, (l.userLogs k).isSome = true →
        ((l.allowRequest key n₁ n₂).2.userLogs k).isSome = true) ∧
      (l.allowRequest key n₁ n₂).2.limit = l.limit ∧
      (l.allowRequest key n₁ n₂).2.windowSize = l.windowSize) ∧
    (∀ l : TokenBucketRateLimiter,
      (∀ bucket, l.userBuckets key = some bucket →
        (l.allowRequest key n₁ n₂).1 = (bucket.allowRequest n₂).1 ∧
        (l.allowRequest key n₁ n₂).2.userBuckets key = some (bucket.allowRequest n₂).2) ∧
      (l.userBuckets key = none →
        (l.allowRequest key n₁ n₂).1 =
          ((TokenBucket.new l.capacity l.refillRatePerSecond n₁).allowRequest n₂).1 ∧
        (l.allowRequest key n₁ n₂).2.userBuckets key =
          some ((TokenBucket.new l.capacity l.refillRatePerSecond n₁).allowRequest n₂).2) ∧
      ((l.allowRequest key n₁ n₂).2.userBuckets key).isSome = true ∧
      (∀ k, (l.userBuckets k).isSome = true →
        ((l.allowRequest key n₁ n₂).2.userBuckets k).isSome = true) ∧
      (l.allowRequest key n₁ n₂).2.capacity = l.capacity ∧
      (l.allowRequest key n₁ n₂).2.refillRatePerSecond = l.refillRatePerSecond) := by
  refine ⟨?_, ?_⟩
  · intro l
    rw [swl_allowRequest_eq]
    refine ⟨?_, ?_, ?_, ?_, rfl, rfl⟩
    · intro log h
      simp [h]
    · intro h
      simp [h]
    · simp
    · intro k hk
      by_cases e : k = key
      · simp [e]
      · simpa [e] using hk
  · intro l
    rw [tb_allowRequest_eq]
    refine ⟨?_, ?_, ?_, ?_, rfl, rfl⟩
    · intro bucket h
      simp [h]
    · intro h
      simp [h]
    · simp
    · intro k hk
      by_cases e : k = key
      · simp [e]
      · simpa [e] using hk

/-- Witness for C8: on a fresh limiter with limit 1 the first request of "bob" is
decided by a new log and admitted, the second by the stored log and rejected. -/
theorem lookup_or_create_witness :
    ((SlidingWindowLogRateLimiter.new 1 1000).allowRequest "bob" 0 0).1 =
      ((SlidingLog.new 1 1000).allowRequest 0 0).1 ∧
    ((SlidingWindowLogRateLimiter.new 1 1000).run [("bob", 0, 0), ("bob", 1, 1)]).1 =
      [true, false] :=
  ⟨(((lookup_or_create "bob" 0 0).1 (SlidingWindowLogRateLimiter.new 1 1000)).2.1 rfl).1,
    by decide!⟩

/-! ## Further lemmas on SlidingLog -/

theorem exists_earlier_reading (rs : List TimePoint) (h : NonDecreasing rs) :
    ∃ c, NonDecreasing (c :: rs) := by
  cases rs with
  | nil => exact ⟨0, by simp [NonDecreasing]⟩
  | cons r rs =>
    unfold NonDecreasing at h ⊢
    refine ⟨r, List.pairwise_cons.mpr ⟨?_, h⟩⟩
    intro a ha
    rcases List.mem_cons.mp ha with rfl | ha
    · exact le_refl _
    · exact (List.pairwise_cons.mp h).1 a ha

theorem readings_append (cs ds : List (TimePoint × TimePoint)) :
    SlidingLog.readings (cs ++ ds) = SlidingLog.readings cs ++ SlidingLog.readings ds := by
  induction cs with
  | nil => rfl
  | cons c cs ih => simp [SlidingLog.readings, ih]

theorem popExpired_all_expired (now : TimePoint) (w : Int) (l : List TimePoint)
    (h : ∀ t ∈ l, (now - t) * 1000000 ≥ ((toNanos w : Int) : ℚ)) :
    SlidingLog.popExpired now w l = [] := by
  induction l with
  | nil => rfl
  | cons t rest ih =>
    simp only [SlidingLog.popExpired]
    rw [if_pos (h t (by simp))]
    exact ih (fun u hu => h u (List.mem_cons_of_mem t hu))

/-- On a chronologically ordered log every entry the front-popping loop leaves
fails the loop condition, not only the front one. -/
theorem popExpired_kept (now : TimePoint) (w : Int) (l : List TimePoint)
    (h : NonDecreasing l) :
    ∀ t ∈ SlidingLog.popExpired now w l, (now - t) * 1000000 < ((toNanos w : Int) : ℚ) := by
  induction l with
  | nil =>
    intro t ht
    simp [SlidingLog.popExpired] at ht
  | cons u rest ih =>
    unfold NonDecreasing at h
    obtain ⟨hle, hrest⟩ := List.pairwise_cons.mp h
    by_cases hexp : (now - u) * 1000000 ≥ ((toNanos w : Int) : ℚ)
    · simp only [SlidingLog.popExpired]
      rw [if_pos hexp]
      exact ih hrest
    · simp only [SlidingLog.popExpired]
      rw [if_neg hexp]
      intro t ht
      have hlt : (now - u) * 1000000 < ((toNanos w : Int) : ℚ) := not_le.mp hexp
      rcases List.mem_cons.mp ht with rfl | ht
      · exact hlt
      · have := hle t ht
        linarith

/-- On a chronologically ordered log, and for a window that does not wrap, the
front-popping loop removes exactly the expired entries. -/
theorem popExpired_eq_pruneAll (now : TimePoint) (w : Int) (l : List TimePoint)
    (hfit : FitsNanos w) (h : NonDecreasing l) :
    SlidingLog.popExpired now w l = SlidingLog.pruneAll now w l := by
  induction l with
  | nil => rfl
  | cons t rest ih =>
    unfold NonDecreasing at h
    obtain ⟨hle, hrest⟩ := List.pairwise_cons.mp h
    unfold SlidingLog.pruneAll
    by_cases hexp : now - t ≥ (w : ℚ)
    · simp only [SlidingLog.popExpired]
      rw [if_pos ((expired_iff_of_fits now t hfit).mpr hexp), ih hrest]
      unfold SlidingLog.pruneAll
      rw [List.filter_cons_of_neg (by simpa using hexp)]
    · simp only [SlidingLog.popExpired]
      rw [if_neg (fun hx => hexp ((expired_iff_of_fits now t hfit).mp hx)),
        List.filter_cons_of_pos (by simpa using hexp)]
      congr 1
      symm
      rw [List.filter_eq_self]
      intro u hu
      have := hle u hu
      have hlt : now - t < (w : ℚ) := not_le.mp hexp
      have : now - u < (w : ℚ) := by linarith
      simpa using this

theorem mem_pruneAll (now : TimePoint) (w : Int) (l : List TimePoint) (t : TimePoint) :
    t ∈ SlidingLog.pruneAll now w l ↔ t ∈ l ∧ now - t < (w : ℚ) := by
  unfold SlidingLog.pruneAll
  simp [List.mem_filter]

/-- One call keeps the log chronologically ordered and below the latest clock
reading, when the readings do not go backwards. -/
theorem allowRequest_ordered (s : SlidingLog) (c n₁ n₂ : TimePoint)
    (hs : NonDecreasing s.timestamps) (hb : ∀ t ∈ s.timestamps, t ≤ c)
    (hc : c ≤ n₁) (hn : n₁ ≤ n₂) :
    NonDecreasing (s.allowRequest n₁ n₂).2.timestamps ∧
    ∀ t ∈ (s.allowRequest n₁ n₂).2.timestamps, t ≤ n₂ := by
  obtain ⟨dr, hdr, -⟩ := popExpired_split n₁ s.windowSize s.timestamps
  have hsub : ∀ t ∈ SlidingLog.popExpired n₁ s.windowSize s.timestamps, t ∈ s.timestamps := by
    intro t ht
    rw [hdr]
    exact List.mem_append_right dr ht
  have hps : NonDecreasing (SlidingLog.popExpired n₁ s.windowSize s.timestamps) := by
    unfold NonDecreasing at hs ⊢
    rw [hdr] at hs
    exact (List.pairwise_append.mp hs).2.1
  by_cases h : toInt (SlidingLog.popExpired n₁ s.windowSize s.timestamps).length < s.limit
  · rw [allowRequest_true s n₁ n₂ h]
    simp only []
    constructor
    · unfold NonDecreasing at hps ⊢
      refine List.pairwise_append.mpr ⟨hps, List.pairwise_singleton _ _, ?_⟩
      intro a ha b hb2
      rw [List.mem_singleton] at hb2
      subst hb2
      have := hb a (hsub a ha)
      linarith
    · intro t ht
      rcases List.mem_append.mp ht with ht | ht
      · have := hb t (hsub t ht)
        linarith
      · rw [List.mem_singleton] at ht
        rw [ht]
  · rw [allowRequest_false s n₁ n₂ h]
    simp only []
    refine ⟨hps, ?_⟩
    intro t ht
    have := hb t (hsub t ht)
    linarith

theorem run_ordered (s : SlidingLog) (calls : List (TimePoint × TimePoint)) (c : TimePoint)
    (hs : NonDecreasing s.timestamps) (hb : ∀ t ∈ s.timestamps, t ≤ c)
    (hmono : NonDecreasing (c :: SlidingLog.readings calls)) :
    NonDecreasing (s.run calls).2.timestamps := by
  induction calls generalizing s c with
  | nil => simpa [SlidingLog.run] using hs
  | cons q qs ih =>
    obtain ⟨n₁, n₂⟩ := q
    unfold NonDecreasing at hmono
    simp only [SlidingLog.readings, List.pairwise_cons, List.mem_cons, forall_eq_or_imp] at hmono
    obtain ⟨⟨hc1, -, -⟩, ⟨h12, -⟩, hn2, hrest⟩ := hmono
    have htail : NonDecreasing (n₂ :: SlidingLog.readings qs) := by
      unfold NonDecreasing
      exact List.pairwise_cons.mpr ⟨hn2, hrest⟩
    obtain ⟨o1, o2⟩ := allowRequest_ordered s c n₁ n₂ hs hb hc1 h12
    simp only [SlidingLog.run]
    exact ih (s.allowRequest n₁ n₂).2 n₂ o1 o2 htail

theorem new_run_ordered (limit windowSize : Int) (calls : List (TimePoint × TimePoint))
    (hmono : NonDecreasing (SlidingLog.readings calls)) :
    NonDecreasing ((SlidingLog.new limit windowSize).run calls).2.timestamps := by
  obtain ⟨c, hc⟩ := exists_earlier_reading _ hmono
  exact run_ordered (SlidingLog.new limit windowSize) calls c
    (by simp [SlidingLog.new, NonDecreasing]) (by simp [SlidingLog.new]) hc

/-- A log with an empty deque and a ceiling `limit ≤ 0` rejects every call and
stays as it is. -/
theorem run_nonpositive_limit (s : SlidingLog) (calls : List (TimePoint × TimePoint))
    (he : s.timestamps = []) (hl : s.limit ≤ 0) :
    s.run calls = (List.replicate calls.length false, s) := by
  induction calls with
  | nil => rfl
  | cons q qs ih =>
    have hpop : SlidingLog.popExpired q.1 s.windowSize s.timestamps = [] := by
      rw [he]
      rfl
    have hrej : ¬ toInt (SlidingLog.popExpired q.1 s.windowSize s.timestamps).length
        < s.limit := by
      rw [hpop]
      simp only [List.length_nil]
      rw [toInt_of_lt (by decide)]
      simp only [Nat.cast_zero]
      omega
    have hstep : s.allowRequest q.1 q.2 = (false, s) := by
      rw [allowRequest_false s q.1 q.2 hrej, hpop, ← he]
    simp only [SlidingLog.run, hstep, ih, List.length_cons, List.replicate_succ]

/-- With a window of zero and a ceiling `limit > 0`, a log whose entries are not
later than the clock admits every call of a run with non-decreasing readings and
ends with at most one entry. -/
theorem run_zero_window (s : SlidingLog) (calls : List (TimePoint × TimePoint))
    (c : TimePoint) (hw : s.windowSize = 0) (hl : 0 < s.limit)
    (hb : ∀ t ∈ s.timestamps, t ≤ c) (hlen : s.timestamps.length ≤ 1)
    (hmono : NonDecreasing (c :: SlidingLog.readings calls)) :
    (s.run calls).1 = List.replicate calls.length true ∧
    (s.run calls).2.timestamps.length ≤ 1 := by
  induction calls generalizing s c with
  | nil => exact ⟨rfl, hlen⟩
  | cons q qs ih =>
    obtain ⟨n₁, n₂⟩ := q
    unfold NonDecreasing at hmono
    simp only [SlidingLog.readings, List.pairwise_cons, List.mem_cons, forall_eq_or_imp] at hmono
    obtain ⟨⟨hc1, -, -⟩, ⟨h12, -⟩, hn2, hrest⟩ := hmono
    have htail : NonDecreasing (n₂ :: SlidingLog.readings qs) := by
      unfold NonDecreasing
      exact List.pairwise_cons.mpr ⟨hn2, hrest⟩
    have hpop : SlidingLog.popExpired n₁ s.windowSize s.timestamps = [] := by
      apply popExpired_all_expired
      intro t ht
      have := hb t ht
      rw [hw]
      have hz : toNanos 0 = 0 := by decide
      rw [hz]
      simp only [Int.cast_zero, ge_iff_le]
      nlinarith
    have hadm : toInt (SlidingLog.popExpired n₁ s.windowSize s.timestamps).length
        < s.limit := by
      rw [hpop]
      simp only [List.length_nil]
      rw [toInt_of_lt (by decide)]
      simpa using hl
    have hstep := allowRequest_true s n₁ n₂ hadm
    rw [hpop] at hstep
    simp only [SlidingLog.run, hstep, List.length_cons, List.replicate_succ]
    have := ih { s with timestamps := [] ++ [n₂] } n₂ hw hl
      (by simp) (by simp) htail
    exact ⟨by rw [this.1], this.2⟩

theorem run_windowSize (s : SlidingLog) (cs : List (TimePoint × TimePoint)) :
    (s.run cs).2.windowSize = s.windowSize := by
  induction cs generalizing s with
  | nil => rfl
  | cons d ds ih =>
    simp only [SlidingLog.run]
    rw [ih, allowRequest_windowSize]

theorem run_snoc (s : SlidingLog) (cs : List (TimePoint × TimePoint)) (n₁ n₂ : TimePoint) :
    (s.run (cs ++ [(n₁, n₂)])).2 = ((s.run cs).2.allowRequest n₁ n₂).2 := by
  induction cs generalizing s with
  | nil => rfl
  | cons d ds ih =>
    simp only [List.cons_append, SlidingLog.run]
    exact ih _

/-! ## Claims on SlidingLog: edge cases, examples and pruning -/

/-- C12, as stated, fails: with window 0 and limit 1 the second of two calls that
observe the same instant is admitted, not rejected. -/
theorem zero_window_same_instant_counterexample :
    ((SlidingLog.new 1 0).run [(0, 0), (0, 0)]).1 = [true, true] ∧
    ((SlidingLog.new 1 0).run [(0, 0), (0, 0)]).1 ≠ [true, false] := by
  decide!

/-- C12, amended. Zero window size: for a log constructed with window 0 and any
limit `L > 0`, under non-decreasing clock readings every call is admitted, calls
that observe the same instant included, because each call first prunes every
earlier timestamp; the log never holds more than the one timestamp of the latest
call. -/
theorem zero_window_admits_every_call (limit : Int)
    (calls : List (TimePoint × TimePoint)) (hl : 0 < limit)
    (hmono : NonDecreasing (SlidingLog.readings calls)) :
    ((SlidingLog.new limit 0).run calls).1 = List.replicate calls.length true ∧
    ((SlidingLog.new limit 0).run calls).2.timestamps.length ≤ 1 := by
  obtain ⟨c, hc⟩ := exists_earlier_reading _ hmono
  exact run_zero_window (SlidingLog.new limit 0) calls c rfl hl
    (by simp [SlidingLog.new]) (by simp [SlidingLog.new]) hc

/-- Witness for C12, amended: limit 2, window 0, four calls at the instant 7 and
one at 8. -/
theorem zero_window_admits_every_call_witness :
    ((SlidingLog.new 2 0).run [(7, 7), (7, 7), (7, 7), (7, 7), (8, 8)]).1 =
      List.replicate 5 true ∧
    ((SlidingLog.new 2 0).run [(7, 7), (7, 7), (7, 7), (7, 7), (8, 8)]).2.timestamps.length
      ≤ 1 :=
  zero_window_admits_every_call 2 [(7, 7), (7, 7), (7, 7), (7, 7), (8, 8)]
    (by decide) (by decide!)

/-- C13. Sliding-window example: on a fresh log with limit 5 and window 2000 ms,
calls at 0, 50, 100, 150, 200 and 250 ms return true five times and then false,
and a seventh call at 2060 ms returns true. -/
theorem sliding_window_example :
    ((SlidingLog.new 5 2000).run
      [(0, 0), (50, 50), (100, 100), (150, 150), (200, 200), (250, 250), (2060, 2060)]).1 =
      [true, true, true, true, true, false, true] := by
  decide!

/-- C17, as stated, fails for a window whose nanosecond count does not fit
`int64_t`: the log with limit 1 and window 9223372036855 ms that admitted the call
at 0 ms holds the timestamp 0; at the clock reading 1 ms the loop of `cleanup`
pops it, while `1 - 0 < windowSize` and the filter keeps it. -/
theorem prefix_pruning_complete_counterexample :
    NonDecreasing (SlidingLog.readings [(0, 0)]) ∧
    ((SlidingLog.new 1 9223372036855).run [(0, 0)]).2.timestamps = [0] ∧
    ((((SlidingLog.new 1 9223372036855).run [(0, 0)]).2).cleanup 1).timestamps = [] ∧
    SlidingLog.pruneAll 1 9223372036855
      ((SlidingLog.new 1 9223372036855).run [(0, 0)]).2.timestamps = [0] := by
  decide!

/-- C17, amended. Prefix pruning is complete, for every window size whose
nanosecond count fits `int64_t` (at most 9223372036854 ms in absolute value): in
every state reached from a fresh log under non-decreasing clock readings the
timestamps are in non-decreasing order, and for every clock reading `now` the
front-popping loop of `cleanup` leaves exactly what removing every expired entry
from the whole sequence leaves: the entries `t` with `now - t < windowSize`, in
their original order. -/
theorem prefix_pruning_complete (limit windowSize : Int)
    (calls : List (TimePoint × TimePoint)) (now : TimePoint)
    (hfit : FitsNanos windowSize)
    (hmono : NonDecreasing (SlidingLog.readings calls)) :
    NonDecreasing ((SlidingLog.new limit windowSize).run calls).2.timestamps ∧
    ((((SlidingLog.new limit windowSize).run calls).2).cleanup now).timestamps =
      SlidingLog.pruneAll now windowSize
        ((SlidingLog.new limit windowSize).run calls).2.timestamps ∧
    (∀ t, t ∈ ((((SlidingLog.new limit windowSize).run calls).2).cleanup now).timestamps ↔
      t ∈ ((SlidingLog.new limit windowSize).run calls).2.timestamps ∧
        now - t < (windowSize : ℚ)) := by
  have hord := new_run_ordered limit windowSize calls hmono
  have hw : ((SlidingLog.new limit windowSize).run calls).2.windowSize = windowSize :=
    run_windowSize (SlidingLog.new limit windowSize) calls
  have heq : ((((SlidingLog.new limit windowSize).run calls).2).cleanup now).timestamps =
      SlidingLog.pruneAll now windowSize
        ((SlidingLog.new limit windowSize).run calls).2.timestamps := by
    unfold SlidingLog.cleanup
    simp only []
    rw [hw]
    exact popExpired_eq_pruneAll now windowSize _ hfit hord
  refine ⟨hord, heq, ?_⟩
  intro t
  rw [heq]
  exact mem_pruneAll now windowSize _ t

/-- Witness for C17, amended: limit 5, window 2000 ms, the log 0, 50, 100, 150,
200 and the clock reading 2060 ms: the loop and the filter both leave 100, 150,
200. -/
theorem prefix_pruning_complete_witness :
    ((((SlidingLog.new 5 2000).run
      [(0, 0), (50, 50), (100, 100), (150, 150), (200, 200)]).2).cleanup 2060).timestamps =
      SlidingLog.pruneAll 2060 2000
        ((SlidingLog.new 5 2000).run
          [(0, 0), (50, 50), (100, 100), (150, 150), (200, 200)]).2.timestamps ∧
    SlidingLog.pruneAll 2060 2000 [0, 50, 100, 150, 200] = [100, 150, 200] :=
  ⟨(prefix_pruning_complete 5 2000 [(0, 0), (50, 50), (100, 100), (150, 150), (200, 200)]
      2060 (by decide) (by decide!)).2.1,
    by decide!⟩

/-- C18, as stated, fails for a window of zero: with limit 1 and window 0 the
call at instant 0 appends the timestamp 0, and `0 - 0 < 0` does not hold. -/
theorem retained_window_invariant_counterexample :
    ((SlidingLog.new 1 0).allowRequest 0 0).2.timestamps = [0] ∧
    ¬ ∀ t ∈ ((SlidingLog.new 1 0).allowRequest 0 0).2.timestamps,
      (0 : TimePoint) - t < (((0 : Int)) : ℚ) := by
  decide!

/-- C18, amended. Retained-timestamp window invariant: for every limit, every
window size `> 0` and every run of calls on a fresh log under non-decreasing clock
readings, after each call every timestamp `t` left in the log, the one appended
by that call included, satisfies `now₁ - t < windowSize`, where `now₁` is the
clock reading `cleanup` took in that call. -/
theorem retained_window_invariant (limit windowSize : Int)
    (calls : List (TimePoint × TimePoint)) (now₁ now₂ : TimePoint)
    (hw : 0 < windowSize)
    (hmono : NonDecreasing (SlidingLog.readings (calls ++ [(now₁, now₂)]))) :
    ∀ t ∈ ((SlidingLog.new limit windowSize).run (calls ++ [(now₁, now₂)])).2.timestamps,
      now₁ - t < (windowSize : ℚ) := by
  have hwq : (0 : ℚ) < (windowSize : ℚ) := by exact_mod_cast hw
  rw [readings_append] at hmono
  have hpre : NonDecreasing (SlidingLog.readings calls) := nonDecreasing_append_left hmono
  have h12 : now₁ ≤ now₂ := by
    unfold NonDecreasing at hmono
    have := (List.pairwise_append.mp hmono).2.1
    simp only [SlidingLog.readings, List.pairwise_cons, List.mem_cons, forall_eq_or_imp] at this
    exact this.1.1
  have hord := new_run_ordered limit windowSize calls hpre
  have hws := run_windowSize (SlidingLog.new limit windowSize) calls
  have hkept : ∀ t ∈ SlidingLog.popExpired now₁
      ((SlidingLog.new limit windowSize).run calls).2.windowSize
      ((SlidingLog.new limit windowSize).run calls).2.timestamps,
      now₁ - t < (windowSize : ℚ) := by
    intro t ht
    rw [hws] at ht
    have hws2 : (SlidingLog.new limit windowSize).windowSize = windowSize := rfl
    rw [hws2] at ht
    have hk := popExpired_kept now₁ windowSize _ hord t ht
    have hle : ((toNanos windowSize : Int) : ℚ) ≤ (windowSize : ℚ) * 1000000 := by
      exact_mod_cast toNanos_le_of_nonneg (le_of_lt hw)
    linarith
  intro t ht
  rw [run_snoc] at ht
  by_cases h : toInt (SlidingLog.popExpired now₁
      ((SlidingLog.new limit windowSize).run calls).2.windowSize
      ((SlidingLog.new limit windowSize).run calls).2.timestamps).length
      < ((SlidingLog.new limit windowSize).run calls).2.limit
  · rw [allowRequest_true _ now₁ now₂ h] at ht
    rcases List.mem_append.mp ht with ht | ht
    · exact hkept t ht
    · rw [List.mem_singleton] at ht
      rw [ht]
      linarith
  · rw [allowRequest_false _ now₁ now₂ h] at ht
    exact hkept t ht

/-- Witness for C18, amended: limit 5, window 2000 ms; after the call at 2060 ms
the log holds 100, 150, 200 and 2060, all less than 2000 ms before 2060. -/
theorem retained_window_invariant_witness :
    ((SlidingLog.new 5 2000).run
      ([(0, 0), (50, 50), (100, 100), (150, 150), (200, 200)] ++ [(2060, 2060)])).2.timestamps
      = [100, 150, 200, 2060] ∧
    ∀ t ∈ ((SlidingLog.new 5 2000).run
      ([(0, 0), (50, 50), (100, 100), (150, 150), (200, 200)] ++
        [(2060, 2060)])).2.timestamps,
      (2060 : TimePoint) - t < (((2000 : Int)) : ℚ) :=
  ⟨by decide!,
    retained_window_invariant 5 2000 [(0, 0), (50, 50), (100, 100), (150, 150), (200, 200)]
      2060 2060 (by decide) (by decide!)⟩

/-- C20, as stated, fails: at the call at 2060 ms the pruning does not empty the
log 0, 50, 100, 150, 200 (limit 5, window 2000 ms), and after the call the log is
not the single timestamp 2060. -/
theorem full_reset_counterexample :
    ((SlidingLog.mk [0, 50, 100, 150, 200] 5 2000).cleanup 2060).timestamps ≠ [] ∧
    ((SlidingLog.mk [0, 50, 100, 150, 200] 5 2000).allowRequest 2060 2060).2.timestamps
      ≠ [2060] := by
  decide!

/-- C20, amended. Partial reset in the sliding-window example: the log with limit
5 and window 2000 ms that admitted the calls at 0, 50, 100, 150 and 200 ms holds
these five timestamps; at the call at 2060 ms the pruning removes exactly the two
entries 0 and 50 (those with `2060 - t ≥ 2000`) and keeps 100, 150 and 200; the
call is admitted and after it the log holds 100, 150, 200 and 2060. -/
theorem partial_reset_example :
    ((SlidingLog.new 5 2000).run
      [(0, 0), (50, 50), (100, 100), (150, 150), (200, 200)]).2 =
      SlidingLog.mk [0, 50, 100, 150, 200] 5 2000 ∧
    ((SlidingLog.mk [0, 50, 100, 150, 200] 5 2000).cleanup 2060).timestamps =
      [100, 150, 200] ∧
    (SlidingLog.mk [0, 50, 100, 150, 200] 5 2000).allowRequest 2060 2060 =
      (true, SlidingLog.mk [100, 150, 200, 2060] 5 2000) := by
  decide!


/-! ## Claims on TokenBucket -/

/-- C3. Token-count invariant: for every capacity `≥ 0` (an `int`) and refill rate
`≥ 0`, in every state reached from a freshly constructed bucket by `allowRequest`
calls under non-decreasing clock readings (the empty run being the constructed
state), `0 ≤ tokens ≤ capacity`. -/
theorem tokens_within_capacity (capacity : Int) (refillRatePerSecond : ℚ)
    (t0 : TimePoint) (calls : List TimePoint)
    (hc : 0 ≤ capacity) (hint : IsInt capacity) (hr : 0 ≤ refillRatePerSecond)
    (hmono : NonDecreasing (t0 :: calls)) :
    0 ≤ ((TokenBucket.new capacity refillRatePerSecond t0).run calls).2.tokens ∧
    ((TokenBucket.new capacity refillRatePerSecond t0).run calls).2.tokens ≤ (capacity : ℚ) := by
  obtain ⟨f1, f2, f3, f4⟩ := new_bucket_fields capacity refillRatePerSecond t0
  have hcq : (0 : ℚ) ≤ (capacity : ℚ) := by exact_mod_cast hc
  obtain ⟨-, -, -, p4, p5⟩ :=
    bucket_run_invariant (TokenBucket.new capacity refillRatePerSecond t0) calls
      (by rw [f1]; exact hint) (by rw [f1]; exact hcq)
      (new_bucket_rate_nonneg capacity refillRatePerSecond t0 hr) (by rw [f2]; exact hcq)
      (by rw [f2, f1]) (by rw [f4]; exact hmono)
  rw [f1] at p5
  exact ⟨p4, p5⟩

/-- Witness for C3: capacity 2, refill 5 tokens per second, constructed at 0 ms
and called at 0, 0, 0, 100 and 5000 ms. -/
theorem tokens_within_capacity_witness :
    0 ≤ ((TokenBucket.new 2 5 0).run [0, 0, 0, 100, 5000]).2.tokens ∧
    ((TokenBucket.new 2 5 0).run [0, 0, 0, 100, 5000]).2.tokens ≤ ((2 : Int) : ℚ) :=
  tokens_within_capacity 2 5 0 [0, 0, 0, 100, 5000] (by decide) (by decide) (by norm_num)
    (by decide!)

/-- C6. Token-bucket step rule, every operation being the `double` operation of
the code: for every state (tokens, lastRefillTime) of a bucket constructed with
an `int` capacity and `refillRatePerSecond`, and every clock reading `now`, with
`r = min(capacity, tokens + (now - lastRefillTime in ms) × (refillRatePerSecond /
1000))`: `allowRequest` returns true if and only if `r ≥ 1`, leaves
`tokens = r - 1` (an exact difference) when it admits and `tokens = r` when it
rejects, sets `lastRefillTime = now` in both outcomes and keeps the
configuration. -/
theorem token_bucket_step_rule (capacity : Int) (refillRatePerSecond : ℚ)
    (t0 tokens lastRefillTime now : TimePoint) (hint : IsInt capacity) :
    ((({ TokenBucket.new capacity refillRatePerSecond t0 with
          tokens := tokens, lastRefillTime := lastRefillTime }).allowRequest now).1 = true ↔
      min (capacity : ℚ)
        (fl (tokens + fl (TokenBucket.elapsedMs lastRefillTime now *
          fl (fl refillRatePerSecond / 1000)))) ≥ 1) ∧
    ((({ TokenBucket.new capacity refillRatePerSecond t0 with
          tokens := tokens, lastRefillTime := lastRefillTime }).allowRequest now).2 =
      { capacity := capacity
        tokens :=
          if min (capacity : ℚ)
              (fl (tokens + fl (TokenBucket.elapsedMs lastRefillTime now *
                fl (fl refillRatePerSecond / 1000)))) ≥ 1 then
            min (capacity : ℚ)
              (fl (tokens + fl (TokenBucket.elapsedMs lastRefillTime now *
                fl (fl refillRatePerSecond / 1000)))) - 1
          else
            min (capacity : ℚ)
              (fl (tokens + fl (TokenBucket.elapsedMs lastRefillTime now *
                fl (fl refillRatePerSecond / 1000))))
        refillRatePerMs := fl (fl refillRatePerSecond / 1000)
        lastRefillTime := now }) := by
  have hrt := refillTokens_tokens
    { TokenBucket.new capacity refillRatePerSecond t0 with
      tokens := tokens, lastRefillTime := lastRefillTime } now
  have hnew : ({ TokenBucket.new capacity refillRatePerSecond t0 with
      tokens := tokens, lastRefillTime := lastRefillTime } : TokenBucket) =
      TokenBucket.mk capacity tokens (fl (fl refillRatePerSecond / 1000)) lastRefillTime := rfl
  rw [hnew] at hrt ⊢
  simp only [] at hrt
  by_cases h : (TokenBucket.refillTokens
      (TokenBucket.mk capacity tokens (fl (fl refillRatePerSecond / 1000)) lastRefillTime)
      now).tokens ≥ 1
  · rw [bucket_allowRequest_granted _ now hint h]
    rw [hrt] at h
    rw [if_pos h]
    refine ⟨⟨fun _ => h, fun _ => rfl⟩, ?_⟩
    rw [← hrt]
    rfl
  · rw [bucket_allowRequest_false _ now h]
    rw [hrt] at h
    rw [if_neg h]
    refine ⟨⟨fun hf => absurd hf (by simp), fun hr => absurd hr h⟩, ?_⟩
    rw [← hrt]
    rfl

/-- Witness for C6: capacity 1, rate `1000/3` per second, an empty bucket last
refilled at 0 ms, called at 3 ms: the product `3.0 × 0.333…` rounds to 1, so
`r = 1`, the call is admitted and leaves 0 tokens. -/
theorem token_bucket_step_rule_witness :
    (({ TokenBucket.new 1 (1000 / 3) 0 with
        tokens := 0, lastRefillTime := 0 } : TokenBucket).allowRequest 3).1 = true ∧
    (({ TokenBucket.new 1 (1000 / 3) 0 with
        tokens := 0, lastRefillTime := 0 } : TokenBucket).allowRequest 3).2.tokens = 0 :=
  ⟨(token_bucket_step_rule 1 (1000 / 3) 0 0 0 3 (by decide)).1.mpr (by decide!),
    by decide!⟩

/-- C10. Zero refill rate gives a one-shot budget: for every capacity `C ≥ 0` (an
`int`), a freshly constructed bucket with refill rate 0 admits the first `C`
calls of every run and rejects every later call, whatever the clock readings, so
a run of `N` calls admits exactly `min N C`. -/
theorem zero_rate_one_shot_budget (capacity : Int) (t0 : TimePoint)
    (calls : List TimePoint) (hc : 0 ≤ capacity) (hint : IsInt capacity) :
    ((TokenBucket.new capacity 0 t0).run calls).1 =
      List.replicate (min calls.length capacity.toNat) true ++
        List.replicate (calls.length - capacity.toNat) false ∧
    TokenBucket.admissions ((TokenBucket.new capacity 0 t0).run calls).1 =
      min calls.length capacity.toNat := by
  have hcap : ((capacity.toNat : Int) : ℚ) = (capacity : ℚ) := by
    rw [Int.toNat_of_nonneg hc]
  have hcap2 : ((capacity.toNat : Nat) : ℚ) = (capacity : ℚ) := by
    rw [← hcap]
    norm_cast
  have h := (bucket_run_zero_rate (TokenBucket.new capacity 0 t0) capacity.toNat calls
    hint (new_bucket_rate_zero capacity t0) (by simp [TokenBucket.new, hcap2])
    (by simp [TokenBucket.new, hcap2])).1
  refine ⟨h, ?_⟩
  rw [h]
  simp [TokenBucket.admissions, List.count_replicate]

/-- Witness for C10: capacity 3 and five calls with gaps of up to an hour. -/
theorem zero_rate_one_shot_budget_witness :
    ((TokenBucket.new 3 0 0).run [0, 10, 3600000, 3600000, 7200000]).1 =
      [true, true, true, false, false] ∧
    TokenBucket.admissions ((TokenBucket.new 3 0 0).run [0, 10, 3600000, 3600000, 7200000]).1
      = 3 :=
  zero_rate_one_shot_budget 3 0 [0, 10, 3600000, 3600000, 7200000] (by decide) (by decide)

/-! ## Further lemmas on TokenBucket -/

/-- A bucket whose capacity is below one token rejects every call. -/
theorem bucket_run_low_capacity (b : TokenBucket) (calls : List TimePoint)
    (h : (b.capacity : ℚ) < 1) :
    (b.run calls).1 = List.replicate calls.length false := by
  induction calls generalizing b with
  | nil => rfl
  | cons t ts ih =>
    have hrej : ¬ (b.refillTokens t).tokens ≥ 1 := by
      have := refillTokens_le_capacity b t
      intro hge
      linarith
    simp only [TokenBucket.run, List.length_cons, List.replicate_succ]
    rw [bucket_allowRequest_false b t hrej]
    simp only []
    rw [ih (b.refillTokens t) h]

theorem refillTokens_shift (b : TokenBucket) (d t : TimePoint) :
    TokenBucket.refillTokens { b with lastRefillTime := b.lastRefillTime + d } (t + d) =
      { b.refillTokens t with lastRefillTime := t + d } := by
  have he : t + d - (b.lastRefillTime + d) = t - b.lastRefillTime := by ring
  unfold TokenBucket.refillTokens TokenBucket.elapsedMs
  simp only [he]

/-- Moving the construction and every call by the same offset `d` changes no
decision: only differences of clock readings enter the arithmetic. -/
theorem bucket_run_shift (b : TokenBucket) (d : TimePoint) (calls : List TimePoint) :
    (TokenBucket.run { b with lastRefillTime := b.lastRefillTime + d }
      (calls.map (fun t => t + d))).1 = (b.run calls).1 := by
  induction calls generalizing b with
  | nil => rfl
  | cons t ts ih =>
    simp only [List.map_cons, TokenBucket.run]
    have hsh := refillTokens_shift b d t
    by_cases h : (b.refillTokens t).tokens ≥ 1
    · rw [bucket_allowRequest_true b t h]
      rw [bucket_allowRequest_true { b with lastRefillTime := b.lastRefillTime + d } (t + d)
        (by rw [hsh]; exact h)]
      rw [hsh]
      have := ih { b.refillTokens t with tokens := fl ((b.refillTokens t).tokens - 1) }
      have e : ({ b.refillTokens t with
          tokens := fl ((b.refillTokens t).tokens - 1) } : TokenBucket).lastRefillTime = t := rfl
      rw [e] at this
      simp only [] at this ⊢
      rw [this]
    · rw [bucket_allowRequest_false b t h]
      rw [bucket_allowRequest_false { b with lastRefillTime := b.lastRefillTime + d } (t + d)
        (by rw [hsh]; exact h)]
      rw [hsh]
      have := ih (b.refillTokens t)
      have e : (b.refillTokens t).lastRefillTime = t := rfl
      rw [e] at this
      simp only [] at this ⊢
      rw [this]

theorem allowRequest_nonpositive_limit (s : SlidingLog) (n₁ n₂ : TimePoint)
    (he : s.timestamps = []) (hl : s.limit ≤ 0) : s.allowRequest n₁ n₂ = (false, s) := by
  have h := run_nonpositive_limit s [(n₁, n₂)] he hl
  simp only [SlidingLog.run, List.length_singleton, List.replicate_succ, List.replicate_zero,
    Prod.mk.injEq, List.cons.injEq, and_true] at h
  exact Prod.ext h.1 h.2

/-- A sliding-window limiter with a ceiling `limit ≤ 0`, all of whose stored logs
are empty with a ceiling `≤ 0`, rejects every request of a run, whatever the
keys. -/
theorem swl_run_nonpositive_limit (l : SlidingWindowLogRateLimiter)
    (reqs : List (String × TimePoint × TimePoint)) (hl : l.limit ≤ 0)
    (hinv : ∀ k log, l.userLogs k = some log → log.timestamps = [] ∧ log.limit ≤ 0) :
    (l.run reqs).1 = List.replicate reqs.length false := by
  induction reqs generalizing l with
  | nil => rfl
  | cons q qs ih =>
    have hg : ((l.userLogs q.1).getD (SlidingLog.new l.limit l.windowSize)).timestamps = [] ∧
        ((l.userLogs q.1).getD (SlidingLog.new l.limit l.windowSize)).limit ≤ 0 := by
      cases hq : l.userLogs q.1 with
      | none => exact ⟨rfl, hl⟩
      | some log => exact hinv q.1 log hq
    have hstep := allowRequest_nonpositive_limit
      ((l.userLogs q.1).getD (SlidingLog.new l.limit l.windowSize)) q.2.1 q.2.2 hg.1 hg.2
    simp only [SlidingWindowLogRateLimiter.run, List.length_cons, List.replicate_succ]
    rw [swl_allowRequest_eq, hstep]
    simp only []
    refine congrArg _ (ih _ hl ?_)
    intro k log hk
    simp only [] at hk
    by_cases e : k = q.1
    · rw [if_pos e] at hk
      rw [← Option.some.inj hk]
      exact hg
    · rw [if_neg e] at hk
      exact hinv k log hk

/-- A token-bucket limiter with a capacity below one token, all of whose stored
buckets have such a capacity, rejects every request of a run, whatever the
keys. -/
theorem tb_run_low_capacity (l : TokenBucketRateLimiter)
    (reqs : List (String × TimePoint × TimePoint)) (hc : (l.capacity : ℚ) < 1)
    (hinv : ∀ k b, l.userBuckets k = some b → (b.capacity : ℚ) < 1) :
    (l.run reqs).1 = List.replicate reqs.length false := by
  induction reqs generalizing l with
  | nil => rfl
  | cons q qs ih =>
    have hg : ((((l.userBuckets q.1).getD
        (TokenBucket.new l.capacity l.refillRatePerSecond q.2.1)).capacity : Int) : ℚ) < 1 := by
      cases hq : l.userBuckets q.1 with
      | none => exact hc
      | some b => exact hinv q.1 b hq
    have hrej : ¬ (((l.userBuckets q.1).getD
        (TokenBucket.new l.capacity l.refillRatePerSecond q.2.1)).refillTokens q.2.2).tokens
        ≥ 1 := by
      have := refillTokens_le_capacity ((l.userBuckets q.1).getD
        (TokenBucket.new l.capacity l.refillRatePerSecond q.2.1)) q.2.2
      intro hge
      linarith
    simp only [TokenBucketRateLimiter.run, List.length_cons, List.replicate_succ]
    rw [tb_allowRequest_eq, bucket_allowRequest_false _ _ hrej]
    simp only []
    refine congrArg _ (ih _ hc ?_)
    intro k b hk
    simp only [] at hk
    by_cases e : k = q.1
    · rw [if_pos e] at hk
      rw [← Option.some.inj hk]
      exact hg
    · rw [if_neg e] at hk
      exact hinv k b hk

/-! ## Claims on edge cases, examples and construction -/

/-- C11. Zero ceiling rejects every call: a log constructed with limit 0 returns
false from every call, for every window size and all clock readings, and its
timestamp log stays empty; a bucket constructed with capacity 0 returns false from
every call, for every refill rate `≥ 0` and non-decreasing clock readings, and its
tokens stay 0. -/
theorem zero_ceiling_rejects_every_call (windowSize : Int)
    (calls : List (TimePoint × TimePoint)) (refillRatePerSecond : ℚ) (t0 : TimePoint)
    (bucketCalls : List TimePoint) (hr : 0 ≤ refillRatePerSecond)
    (hmono : NonDecreasing (t0 :: bucketCalls)) :
    ((SlidingLog.new 0 windowSize).run calls).1 = List.replicate calls.length false ∧
    ((SlidingLog.new 0 windowSize).run calls).2.timestamps = [] ∧
    ((TokenBucket.new 0 refillRatePerSecond t0).run bucketCalls).1 =
      List.replicate bucketCalls.length false ∧
    ((TokenBucket.new 0 refillRatePerSecond t0).run bucketCalls).2.tokens = 0 := by
  have hlog := run_nonpositive_limit (SlidingLog.new 0 windowSize) calls rfl
    (by simp [SlidingLog.new])
  have hdec := bucket_run_low_capacity (TokenBucket.new 0 refillRatePerSecond t0) bucketCalls
    (by simp [TokenBucket.new])
  obtain ⟨-, -, -, p4, p5⟩ :=
    bucket_run_invariant (TokenBucket.new 0 refillRatePerSecond t0) bucketCalls
      (by simp only [TokenBucket.new]; decide)
      (by simp [TokenBucket.new])
      (new_bucket_rate_nonneg 0 refillRatePerSecond t0 hr)
      (by simp [TokenBucket.new]) (by simp [TokenBucket.new])
      (by simpa [TokenBucket.new] using hmono)
  have hcap : ((TokenBucket.new 0 refillRatePerSecond t0).capacity : ℚ) = 0 := by
    simp [TokenBucket.new]
  rw [hcap] at p5
  refine ⟨?_, ?_, hdec, le_antisymm p5 p4⟩
  · rw [hlog]
  · rw [hlog]
    rfl

/-- Witness for C11: a log with limit 0 and window 1000 ms called three times, and
a bucket with capacity 0 and refill 5 tokens per second called up to an hour after
its construction. -/
theorem zero_ceiling_rejects_every_call_witness :
    ((SlidingLog.new 0 1000).run [(0, 0), (500, 500), (5000, 5000)]).1 =
      List.replicate 3 false ∧
    ((SlidingLog.new 0 1000).run [(0, 0), (500, 500), (5000, 5000)]).2.timestamps = [] ∧
    ((TokenBucket.new 0 5 0).run [0, 1000, 3600000]).1 = List.replicate 3 false ∧
    ((TokenBucket.new 0 5 0).run [0, 1000, 3600000]).2.tokens = 0 :=
  zero_ceiling_rejects_every_call 1000 [(0, 0), (500, 500), (5000, 5000)] 5 0
    [0, 1000, 3600000] (by norm_num) (by decide!)

/-- C14. Token-bucket example: a bucket constructed at `t0` with capacity 10 and
refill rate 5 tokens per second starts full; 10 calls at `t0` all return true and
an 11th call at `t0` returns false; of the calls made at `t0 + 400` ms the first
two return true and the third returns false. -/
theorem token_bucket_example (t0 : TimePoint) :
    (TokenBucket.new 10 5 t0).tokens = 10 ∧
    ((TokenBucket.new 10 5 t0).run
      (List.replicate 11 t0 ++ List.replicate 3 (t0 + 400))).1 =
      List.replicate 10 true ++ [false, true, true, false] := by
  have base : ((TokenBucket.new 10 5 0).run
      (List.replicate 11 0 ++ List.replicate 3 400)).1 =
      List.replicate 10 true ++ [false, true, true, false] := by
    decide!
  have hshift := bucket_run_shift (TokenBucket.new 10 5 0) t0
    (List.replicate 11 0 ++ List.replicate 3 400)
  have hstate : ({ TokenBucket.new 10 5 0 with
      lastRefillTime := (TokenBucket.new 10 5 0).lastRefillTime + t0 } : TokenBucket) =
      TokenBucket.new 10 5 t0 := by
    simp [TokenBucket.new]
  have hcalls : (List.replicate 11 (0 : TimePoint) ++ List.replicate 3 400).map
      (fun t => t + t0) = List.replicate 11 t0 ++ List.replicate 3 (t0 + 400) := by
    simp [List.replicate, add_comm]
  rw [hstate, hcalls, base] at hshift
  refine ⟨?_, hshift⟩
  simp [TokenBucket.new]

/-- C15, as stated, fails: nothing is rejected at construction. A log built with
limit -1 and window -1000 ms, a log with window -1000 ms, a bucket with refill
rate -5 per second (which drives its tokens below zero) and a bucket with capacity
-1 are all constructed and answer their calls. -/
theorem fail_fast_construction_counterexample :
    (SlidingLog.new (-1) (-1000)).run [(0, 0), (5, 5)] =
      ([false, false], SlidingLog.mk [] (-1) (-1000)) ∧
    (SlidingLog.new 1 (-1000)).run [(0, 0), (0, 0), (1, 1)] =
      ([true, true, true], SlidingLog.mk [1] 1 (-1000)) ∧
    ((TokenBucket.new 1 (-5) 0).run [0, 1000]).1 = [true, false] ∧
    ((TokenBucket.new 1 (-5) 0).run [0, 1000]).2.tokens = -5 ∧
    ((TokenBucket.new (-1) 5 0).run [0, 1000000]).1 = [false, false] ∧
    ((TokenBucket.new (-1) 5 0).run [0, 1000000]).2.tokens = -1 := by
  decide!

/-- C15, amended. Construction validates nothing: the constructors of both
per-key classes and of both keyed limiters store the limit, window size, capacity
and refill rate they are given, negative values included, and yield a limiter
that answers `allowRequest`; a log with a negative limit and a bucket with a
negative capacity reject every call of every run, and so does a keyed limiter
constructed with a negative limit or capacity, for every sequence of requests
and keys. -/
theorem construction_accepts_negative_configuration (limit windowSize capacity : Int)
    (refillRatePerSecond : ℚ) (t0 : TimePoint) (calls : List (TimePoint × TimePoint))
    (bucketCalls : List TimePoint) (requests : List (String × TimePoint × TimePoint))
    (hl : limit < 0) (hc : capacity < 0) :
    SlidingLog.new limit windowSize = SlidingLog.mk [] limit windowSize ∧
    (SlidingLog.new limit windowSize).run calls =
      (List.replicate calls.length false, SlidingLog.new limit windowSize) ∧
    TokenBucket.new capacity refillRatePerSecond t0 =
      TokenBucket.mk capacity (capacity : ℚ) (fl (fl refillRatePerSecond / 1000)) t0 ∧
    ((TokenBucket.new capacity refillRatePerSecond t0).run bucketCalls).1 =
      List.replicate bucketCalls.length false ∧
    ((SlidingWindowLogRateLimiter.new limit windowSize).run requests).1 =
      List.replicate requests.length false ∧
    ((TokenBucketRateLimiter.new capacity refillRatePerSecond).run requests).1 =
      List.replicate requests.length false ∧
    (SlidingWindowLogRateLimiter.new limit windowSize).limit = limit ∧
    (SlidingWindowLogRateLimiter.new limit windowSize).windowSize = windowSize ∧
    (TokenBucketRateLimiter.new capacity refillRatePerSecond).capacity = capacity ∧
    (TokenBucketRateLimiter.new capacity refillRatePerSecond).refillRatePerSecond =
      refillRatePerSecond := by
  have hcq : ((capacity : Int) : ℚ) < 1 := by
    have : ((capacity : Int) : ℚ) < 0 := by exact_mod_cast hc
    linarith
  refine ⟨rfl, ?_, rfl, ?_, ?_, ?_, rfl, rfl, rfl, rfl⟩
  · exact run_nonpositive_limit (SlidingLog.new limit windowSize) calls rfl
      (by simp only [SlidingLog.new]; omega)
  · exact bucket_run_low_capacity (TokenBucket.new capacity refillRatePerSecond t0)
      bucketCalls (by simpa [TokenBucket.new] using hcq)
  · apply swl_run_nonpositive_limit
    · simp only [SlidingWindowLogRateLimiter.new]
      omega
    · intro k log hk
      simp [SlidingWindowLogRateLimiter.new] at hk
  · apply tb_run_low_capacity
    · simpa [TokenBucketRateLimiter.new] using hcq
    · intro k b hk
      simp [TokenBucketRateLimiter.new] at hk

/-- Witness for C15, amended: limit -3 with window -7 ms, and capacity -2 with
refill rate -1 per second; three requests of two keys, the registry being
populated by the first two. -/
theorem construction_accepts_negative_configuration_witness :
    ((SlidingWindowLogRateLimiter.new (-3) (-7)).run
      [("a", 0, 0), ("b", 1, 1), ("a", 2, 2)]).1 = List.replicate 3 false ∧
    ((TokenBucketRateLimiter.new (-2) (-1)).run
      [("a", 0, 0), ("b", 1, 1), ("a", 2, 2)]).1 = List.replicate 3 false :=
  ⟨(construction_accepts_negative_configuration (-3) (-7) (-2) (-1) 0 [(0, 0), (1, 1)]
      [0, 5000] [("a", 0, 0), ("b", 1, 1), ("a", 2, 2)] (by decide) (by decide)).2.2.2.2.1,
    (construction_accepts_negative_configuration (-3) (-7) (-2) (-1) 0 [(0, 0), (1, 1)]
      [0, 5000] [("a", 0, 0), ("b", 1, 1), ("a", 2, 2)] (by decide) (by decide)).2.2.2.2.2.1⟩

theorem registry_insert_self {V : Type} (m : Registry V) (key : String) (v : V) :
    m.insert key v key = some v := by
  unfold Registry.insert
  simp

/-- The two critical sections, run one after the other by one thread, are the
method `allowRequest(userId)`. -/
theorem allowRequest_eq_sections (l : TokenBucketRateLimiter) (key : String)
    (nowNew now : TimePoint) :
    (l.findOrCreate key nowNew).callBucket key now = l.allowRequest key nowNew now := by
  unfold TokenBucketRateLimiter.findOrCreate TokenBucketRateLimiter.callBucket
    TokenBucketRateLimiter.allowRequest
  cases h : l.userBuckets key with
  | none =>
    simp only [registry_insert_self]
  | some bucket =>
    simp only [h]

theorem findOrCreate_frame (l : TokenBucketRateLimiter) (key : String) (nowNew : TimePoint) :
    (l.findOrCreate key nowNew).capacity = l.capacity ∧
    (l.findOrCreate key nowNew).refillRatePerSecond = l.refillRatePerSecond ∧
    (l.findOrCreate key nowNew).userBuckets key =
      some ((l.userBuckets key).getD
        (TokenBucket.new l.capacity l.refillRatePerSecond nowNew)) := by
  unfold TokenBucketRateLimiter.findOrCreate
  cases h : l.userBuckets key with
  | none => exact ⟨rfl, rfl, by simp only [registry_insert_self, Option.getD_none]⟩
  | some bucket => exact ⟨rfl, rfl, by simp only [h, Option.getD_some]⟩

theorem callBucket_some (l : TokenBucketRateLimiter) (key : String) (now : TimePoint)
    (b : TokenBucket) (h : l.userBuckets key = some b) :
    (l.callBucket key now).1 = (b.allowRequest now).1 ∧
    (l.callBucket key now).2.capacity = l.capacity ∧
    (l.callBucket key now).2.refillRatePerSecond = l.refillRatePerSecond ∧
    (l.callBucket key now).2.userBuckets key = some (b.allowRequest now).2 := by
  unfold TokenBucketRateLimiter.callBucket
  rw [h]
  exact ⟨rfl, rfl, rfl, by simp only [registry_insert_self]⟩

/-- One call on a bucket with a zero refill rate holding `k` tokens: it is
admitted exactly when `k ≥ 1`, and leaves `k - 1` tokens. -/
theorem bucket_call_zero_rate (b : TokenBucket) (k : Nat) (now : TimePoint)
    (hint : IsInt b.capacity)
    (hr : b.refillRatePerMs = 0) (hk : b.tokens = (k : ℚ)) (hcap : (k : ℚ) ≤ (b.capacity : ℚ)) :
    (b.allowRequest now).1 = decide (1 ≤ k) ∧
    (b.allowRequest now).2.tokens = ((k - 1 : Nat) : ℚ) ∧
    (b.allowRequest now).2.refillRatePerMs = 0 ∧
    (b.allowRequest now).2.capacity = b.capacity := by
  have h := bucket_run_zero_rate b k [now] hint hr hk hcap
  obtain ⟨s1, s2, -, -, -⟩ := bucket_step b now
  simp only [TokenBucket.run, List.length_singleton] at h
  refine ⟨?_, h.2, by rw [s2]; exact hr, s1⟩
  have h1 := h.1
  cases k with
  | zero =>
    simp only [Nat.min_zero, List.replicate_zero, Nat.sub_zero, List.replicate_succ,
      List.nil_append, List.cons.injEq, and_true] at h1
    rw [h1]
    rfl
  | succ j =>
    have e1 : min 1 (j + 1) = 1 := by omega
    have e2 : 1 - (j + 1) = 0 := by omega
    rw [e1, e2] at h1
    simp only [List.replicate_succ, List.replicate_zero, List.append_nil, List.cons.injEq,
      and_true] at h1
    rw [h1]
    simp

/-- With a zero refill rate, whatever the schedule, the decisions returned to the
threads are `true` for the first `k` bucket calls that run and `false` for the
others, `k` being the tokens of the bucket (the capacity while no thread has
created it). -/
theorem threads_run_zero_rate (key : String) (s : Threads) (k : Nat)
    (schedule : List (Nat × TimePoint))
    (hrate : s.limiter.refillRatePerSecond = 0) (hint : IsInt s.limiter.capacity)
    (hnone : s.limiter.userBuckets key = none →
      (∀ i, s.pc i = 0) ∧ s.limiter.capacity = (k : Int))
    (hsome : ∀ b, s.limiter.userBuckets key = some b →
      b.refillRatePerMs = 0 ∧ b.tokens = (k : ℚ) ∧ (k : ℚ) ≤ (b.capacity : ℚ) ∧
        IsInt b.capacity) :
    (s.run key schedule).1 =
      List.replicate (min (Threads.pendingCalls s.pc schedule) k) true ++
        List.replicate (Threads.pendingCalls s.pc schedule - k) false := by
  induction schedule generalizing s k with
  | nil => simp [Threads.run, Threads.pendingCalls]
  | cons p rest ih =>
    simp only [Threads.run, Threads.step, Threads.pendingCalls]
    by_cases h0 : s.pc p.1 = 0
    · rw [if_pos h0, if_pos h0]
      obtain ⟨f1, f2, f3⟩ := findOrCreate_frame s.limiter key p.2
      simp only []
      apply ih
      · simp only []
        rw [f2]
        exact hrate
      · simp only []
        rw [f1]
        exact hint
      · intro hn
        simp only [] at hn
        rw [f3] at hn
        exact absurd hn (by simp)
      · intro b hb
        simp only [] at hb
        rw [f3] at hb
        have hb := Option.some.inj hb
        cases hq : s.limiter.userBuckets key with
        | none =>
          rw [hq, Option.getD_none] at hb
          obtain ⟨-, hcapk⟩ := hnone hq
          rw [← hb]
          refine ⟨?_, ?_, ?_, ?_⟩
          · rw [hrate]
            exact new_bucket_rate_zero _ _
          · simp only [TokenBucket.new, hcapk]
            norm_cast
          · simp only [TokenBucket.new, hcapk]
            norm_cast
          · exact hint
        | some b0 =>
          rw [hq, Option.getD_some] at hb
          rw [← hb]
          exact hsome b0 hq
    · rw [if_neg h0, if_neg h0]
      by_cases h1 : s.pc p.1 = 1
      · rw [if_pos h1, if_pos h1]
        cases hq : s.limiter.userBuckets key with
        | none => exact absurd ((hnone hq).1 p.1) h0
        | some b =>
          obtain ⟨b1, b2, b3, b4⟩ := hsome b hq
          obtain ⟨c1, c2, c3, c4⟩ := callBucket_some s.limiter key p.2 b hq
          obtain ⟨d1, d2, d3, d4⟩ := bucket_call_zero_rate b k p.2 b4 b1 b2 b3
          simp only []
          have hrec := ih
            { limiter := (s.limiter.callBucket key p.2).2
              pc := fun i => if i = p.1 then 2 else s.pc i } (k - 1)
            (by simp only []; rw [c3]; exact hrate)
            (by simp only []; rw [c2]; exact hint)
            (by
              intro hn
              simp only [] at hn
              rw [c4] at hn
              exact absurd hn (by simp))
            (by
              intro b' hb'
              simp only [] at hb'
              rw [c4] at hb'
              rw [← Option.some.inj hb']
              refine ⟨d3, d2, ?_, by rw [d4]; exact b4⟩
              rw [d4]
              have : ((k - 1 : Nat) : ℚ) ≤ (k : ℚ) := by exact_mod_cast Nat.sub_le k 1
              linarith)
          simp only [] at hrec
          rw [hrec, c1, d1]
          cases k with
          | zero => simp [List.replicate_succ]
          | succ j =>
            simp [List.replicate_succ, Nat.succ_min_succ]
      · rw [if_neg h1, if_neg h1]
        simp only []
        exact ih s k hrate hint hnone hsome

theorem countP_eq_of_agree (p q : Nat → Bool) (l : List Nat)
    (h : ∀ j ∈ l, p j = q j) : l.countP p = l.countP q := by
  induction l with
  | nil => rfl
  | cons a l ih =>
    have ha := h a (by simp)
    have hl := ih (fun j hj => h j (List.mem_cons_of_mem a hj))
    simp only [List.countP_cons, ha, hl]

theorem countP_eq_succ_of_flip (p q : Nat → Bool) (l : List Nat) (i : Nat)
    (hnd : l.Nodup) (hi : i ∈ l) (hp : p i = true) (hq : q i = false)
    (h : ∀ j, j ≠ i → p j = q j) : l.countP p = l.countP q + 1 := by
  induction l with
  | nil => simp at hi
  | cons a l ih =>
    obtain ⟨hnot, hnd'⟩ := List.nodup_cons.mp hnd
    by_cases ha : a = i
    · subst ha
      have hl := countP_eq_of_agree p q l (fun j hj => h j (fun e => hnot (e ▸ hj)))
      simp only [List.countP_cons, hp, hq, hl]
      simp
    · have hil : i ∈ l := by
        rcases List.mem_cons.mp hi with e | e
        · exact absurd e.symm ha
        · exact e
      have := ih hnd' hil
      simp only [List.countP_cons, h a ha, this]
      omega

/-- The bucket calls a schedule runs are those of the threads that have not
returned and that the schedule takes through their second critical section. -/
theorem pendingCalls_eq_countP (n : Nat) (pc : Nat → Nat) (schedule : List (Nat × TimePoint))
    (hlt : ∀ p ∈ schedule, p.1 < n) :
    Threads.pendingCalls pc schedule =
      (List.range n).countP
        (fun j => decide (pc j ≤ 1 ∧ 2 ≤ pc j + (schedule.map Prod.fst).count j)) := by
  induction schedule generalizing pc with
  | nil =>
    simp only [Threads.pendingCalls, List.map_nil, List.count_nil, Nat.add_zero]
    symm
    rw [List.countP_eq_zero]
    intro j _
    simp only [decide_eq_true_eq, not_and, not_le]
    omega
  | cons p rest ih =>
    have hi : p.1 < n := hlt p (by simp)
    have hrest : ∀ q ∈ rest, q.1 < n := fun q hq => hlt q (List.mem_cons_of_mem p hq)
    have hmem : p.1 ∈ List.range n := List.mem_range.mpr hi
    have hcount : ∀ j, ((p :: rest).map Prod.fst).count j =
        (rest.map Prod.fst).count j + (if j = p.1 then 1 else 0) := by
      intro j
      simp only [List.map_cons, List.count_cons]
      by_cases e : j = p.1
      · simp [e]
      · have e2 : ¬ p.1 = j := fun x => e x.symm
        simp [e, e2]
    simp only [Threads.pendingCalls]
    by_cases h0 : pc p.1 = 0
    · rw [if_pos h0, ih _ hrest]
      apply countP_eq_of_agree
      intro j _
      rw [hcount j]
      by_cases e : j = p.1
      · subst e
        simp only [if_true, h0]
        simp only [decide_eq_decide]
        omega
      · simp only [if_neg e, Nat.add_zero]
    · rw [if_neg h0]
      by_cases h1 : pc p.1 = 1
      · rw [if_pos h1, ih _ hrest]
        symm
        apply countP_eq_succ_of_flip _ _ _ p.1 (List.nodup_range n) hmem
        · rw [hcount p.1]
          simp only [if_true, h1, decide_eq_true_eq]
          omega
        · simp only [if_true, decide_eq_false_iff_not, not_and, not_le]
          omega
        · intro j hj
          rw [hcount j]
          simp only [if_neg hj, Nat.add_zero]
      · rw [if_neg h1, ih _ hrest]
        apply countP_eq_of_agree
        intro j _
        rw [hcount j]
        by_cases e : j = p.1
        · subst e
          simp only [decide_eq_decide]
          omega
        · simp only [if_neg e, Nat.add_zero]

theorem pendingCalls_complete (n : Nat) (schedule : List (Nat × TimePoint))
    (h : Threads.Complete n schedule) :
    Threads.pendingCalls (fun _ => 0) schedule = n := by
  obtain ⟨hlt, hcnt⟩ := h
  rw [pendingCalls_eq_countP n _ schedule hlt]
  have : (List.range n).countP
      (fun j => decide ((fun _ => 0 : Nat → Nat) j ≤ 1 ∧
        2 ≤ (fun _ => 0 : Nat → Nat) j + (schedule.map Prod.fst).count j)) =
      (List.range n).length := by
    rw [List.countP_eq_length]
    intro j hj
    have := hcnt j (List.mem_range.mp hj)
    simp only [decide_eq_true_eq]
    omega
  rw [this, List.length_range]

/-! ## Claim on concurrency -/

/-- C16. Concurrency safety under contention: `n` threads each call
`allowRequest` for the same key on a `TokenBucketRateLimiter` with capacity
`C ≥ 0` (an `int`) and zero refill rate, each call being its two critical
sections (the lookup under the registry lock, the call of the bucket under the
bucket's lock). For every thread count, every interleaving of these sections
that runs all threads to completion and all clock readings, every thread gets a
decision, exactly `min n C` requests are admitted, those of the first `C` threads
to reach the bucket, and never more than `C`. -/
theorem concurrent_admissions_same_key (capacity : Int) (n : Nat) (userId : String)
    (schedule : List (Nat × TimePoint))
    (hc : 0 ≤ capacity) (hint : IsInt capacity) (hs : Threads.Complete n schedule) :
    ((Threads.start (TokenBucketRateLimiter.new capacity 0)).run userId schedule).1 =
      List.replicate (min n capacity.toNat) true ++
        List.replicate (n - capacity.toNat) false ∧
    ((Threads.start (TokenBucketRateLimiter.new capacity 0)).run userId schedule).1.length
      = n ∧
    TokenBucket.admissions
      ((Threads.start (TokenBucketRateLimiter.new capacity 0)).run userId schedule).1 =
      min n capacity.toNat ∧
    TokenBucket.admissions
      ((Threads.start (TokenBucketRateLimiter.new capacity 0)).run userId schedule).1 ≤
      capacity.toNat := by
  have hrun := threads_run_zero_rate userId
    (Threads.start (TokenBucketRateLimiter.new capacity 0)) capacity.toNat schedule rfl hint
    (by
      intro _
      exact ⟨fun _ => rfl, by
        simp only [Threads.start, TokenBucketRateLimiter.new]
        omega⟩)
    (by
      intro b hb
      simp [Threads.start, TokenBucketRateLimiter.new] at hb)
  have hpc : (Threads.start (TokenBucketRateLimiter.new capacity 0)).pc = fun _ => 0 := rfl
  rw [hpc, pendingCalls_complete n schedule hs] at hrun
  refine ⟨hrun, ?_, ?_, ?_⟩
  · rw [hrun]
    simp only [List.length_append, List.length_replicate]
    omega
  · rw [hrun]
    simp [TokenBucket.admissions, List.count_replicate]
  · rw [hrun]
    simp [TokenBucket.admissions, List.count_replicate]

/-- Witness for C16: capacity 2 and three threads; thread 1 runs both its
sections between the lookup and the bucket call of thread 0, and thread 2 starts
before thread 0 has finished: the first two bucket calls are admitted, the third
is rejected. -/
theorem concurrent_admissions_same_key_witness :
    Threads.Complete 3 [(0, 0), (1, 0), (1, 1), (2, 1), (0, 5), (2, 7)] ∧
    ((Threads.start (TokenBucketRateLimiter.new 2 0)).run "user123"
      [(0, 0), (1, 0), (1, 1), (2, 1), (0, 5), (2, 7)]).1 = [true, true, false] ∧
    TokenBucket.admissions
      ((Threads.start (TokenBucketRateLimiter.new 2 0)).run "user123"
        [(0, 0), (1, 0), (1, 1), (2, 1), (0, 5), (2, 7)]).1 = 2 :=
  ⟨by decide!, by decide!,
    (concurrent_admissions_same_key 2 3 "user123"
      [(0, 0), (1, 0), (1, 1), (2, 1), (0, 5), (2, 7)]
      (by decide) (by decide) (by decide!)).2.2.1⟩
